import Mathlib

/-!
# Shallow embedding of the `bin-packing` crate

One-dimensional bin packing.  A bin is modelled by the list of the sizes of
the items packed into it (most recently packed first); items are modelled by
their sizes, since the `Item` trait exposes nothing but `size()` and the
`Bin` trait reads items only through `size()`.  The bin capacity `C` is the
constant `B::capacity()` of the bin type, carried as an explicit parameter.
`available()` is `capacity - used` as in the crate's `BinImpl` (the only bin
implementation in the repository), where `used` is the sum of the packed
sizes; subtraction is `Nat` truncated subtraction, which agrees with `usize`
arithmetic whenever `used ≤ C` (an invariant proved below).
-/

namespace BinPacking

/-- A bin: the sizes of the items packed into it, most recent first. -/
abbrev Bin := List Nat

/-- The collection of bins (`Vec<B>` in the crate). -/
abbrev Bins := List Bin

/-- `bin.available()`: capacity minus the summed packed sizes. -/
def available (C : Nat) (b : Bin) : Nat := C - b.sum

/-- `bin.pack(item)`: record another packed item. -/
def pack (b : Bin) (s : Nat) : Bin := s :: b

/-- `bins[i].pack(item)`: pack into the bin at index `i`.  The crate indexes
the `Vec` directly; its strategies only ever return in-bounds indices
(proved below), where `List.set`/`List.getD` agree with Rust indexing. -/
def packAt (bins : Bins) (i : Nat) (s : Nat) : Bins :=
  bins.set i (pack (bins.getD i []) s)

/-- An online strategy: `next_idx(bins, item)` from the `Strategy` trait,
specialised to a fixed bin type of capacity `C` (already applied). -/
abbrev StrategyFn := Bins → Nat → Option Nat

/-- The loop of `FirstFit::next_idx`: walk the `(index, bin)` pairs and
return the first index whose bin has at least `s` available. -/
def firstFitGo (C : Nat) (s : Nat) : List Bin → Nat → Option Nat
  | [], _ => none
  | b :: rest, i =>
    if s ≤ available C b then some i else firstFitGo C s rest (i + 1)

/-- `FirstFit::next_idx`: the first bin whose available capacity is at least
the item's size. -/
def firstFit (C : Nat) (bins : Bins) (s : Nat) : Option Nat :=
  firstFitGo C s bins 0

/-- `NextFit::next_idx`: the last bin, if the item fits there. -/
def nextFit (C : Nat) (bins : Bins) (s : Nat) : Option Nat :=
  match bins.getLast? with
  | none => none
  | some b => if s ≤ available C b then some (bins.length - 1) else none

/-- The loop body of `BestFit::next_idx`: walk the remaining `(index, bin)`
pairs, keeping the index of the tightest fitting bin seen so far (`best`);
a new bin wins only on a strictly smaller `available()` (`<` in the source),
so the first of equally tight bins is kept.  `all` is the full bin slice the
source re-indexes for `bins[j].available()`. -/
def bestFitGo (C : Nat) (s : Nat) (all : Bins) :
    List (Nat × Bin) → Option Nat → Option Nat
  | [], best => best
  | (i, b) :: rest, best =>
    if s ≤ available C b then
      match best with
      | none => bestFitGo C s all rest (some i)
      | some j =>
        if available C b < available C (all.getD j []) then
          bestFitGo C s all rest (some i)
        else
          bestFitGo C s all rest (some j)
    else
      bestFitGo C s all rest best

/-- `BestFit::next_idx`: the fitting bin with the least available capacity,
first index winning ties. -/
def bestFit (C : Nat) (bins : Bins) (s : Nat) : Option Nat :=
  bestFitGo C s bins bins.enum none

/-- `pack_bins`: pack each item where the strategy says, pushing a fresh
default bin (and packing into it) when the strategy returns `None`. -/
def packBins (strat : StrategyFn) (bins : Bins) (items : List Nat) : Bins :=
  items.foldl
    (fun bs s =>
      match strat bs s with
      | some i => packAt bs i s
      | none => bs ++ [pack [] s])
    bins

/-- `pack_existing_bins`: pack items one at a time into the fixed bin slice;
on the first item the strategy cannot place, stop, returning the bins and
the unconsumed remainder of the iterator. -/
def packExistingBins (strat : StrategyFn) (bins : Bins) :
    List Nat → Bins × List Nat
  | [] => (bins, [])
  | s :: rest =>
    match strat bins s with
    | some i => packExistingBins strat (packAt bins i s) rest
    | none => (bins, s :: rest)

/-- `Vec::pop`: remove and return the last element. -/
def popBack : List Nat → Option (Nat × List Nat)
  | [] => none
  | [a] => some (a, [])
  | a :: b :: r =>
    match popBack (b :: r) with
    | some (x, rest) => some (x, a :: rest)
    | none => none

/-- Insert into a descending-sorted list, keeping it descending. -/
def insertDesc (a : Nat) : List Nat → List Nat
  | [] => [a]
  | b :: r => if b < a then a :: b :: r else b :: insertDesc a r

/-- `items.sort_unstable_by_key(|item| Reverse(item.size()))`: sort the
sizes in descending order.  On bare sizes every descending sort produces
the same list, so insertion sort models the unstable sort exactly. -/
def sortDesc (l : List Nat) : List Nat := l.foldr insertDesc []

theorem popBack_append_singleton (l : List Nat) (a : Nat) :
    popBack (l ++ [a]) = some (a, l) := by
  induction l with
  | nil => rfl
  | cons x xs ih =>
    cases xs with
    | nil => simp [popBack, ih]
    | cons y ys => simp [popBack] at ih ⊢; simp [ih]

theorem popBack_some_length {l r : List Nat} {x : Nat}
    (h : popBack l = some (x, r)) : r.length < l.length := by
  induction l generalizing r with
  | nil => simp [popBack] at h
  | cons a as ih =>
    cases as with
    | nil =>
      simp [popBack] at h
      simp [h.2.symm]
    | cons b bs =>
      simp only [popBack] at h
      cases hb : popBack (b :: bs) with
      | none => rw [hb] at h; simp at h
      | some p =>
        rw [hb] at h
        obtain ⟨x', r'⟩ := p
        simp at h
        have := ih (r := r') (by rw [hb, h.1])
        rw [← h.2]
        simpa using Nat.succ_lt_succ this

/-- The `while let Some(item) = items.pop()` loop shared by
`FirstFitDecreasing::pack_all` and `BestFitDecreasing::pack_all`: repeatedly
pop the *last* element of the item vector and pack it — into the bin the
online strategy picks, or into a freshly pushed bin when it picks none.
Returns the bins together with the drained item vector. -/
def drainPackLoop (strat : StrategyFn) (bins : Bins) (items : List Nat) :
    Bins × List Nat :=
  match h : popBack items with
  | none => (bins, items)
  | some (x, rest) =>
    drainPackLoop strat
      (match strat bins x with
        | some i => packAt bins i x
        | none => bins ++ [pack [] x])
      rest
termination_by items.length
decreasing_by exact popBack_some_length h

/-- `FirstFitDecreasing::pack_all`: sort descending, then drain with
`FirstFit` via `Vec::pop` (which takes elements from the *back*). -/
def ffdPackAll (C : Nat) (bins : Bins) (items : List Nat) : Bins × List Nat :=
  drainPackLoop (firstFit C) bins (sortDesc items)

/-- `BestFitDecreasing::pack_all`: sort descending, then drain with
`BestFit` via `Vec::pop`. -/
def bfdPackAll (C : Nat) (bins : Bins) (items : List Nat) : Bins × List Nat :=
  drainPackLoop (bestFit C) bins (sortDesc items)

/-- Popping from the back drains the vector in reverse order: the pop loop
is the online driver `packBins` run on the *reversed* item list, and the
item vector ends empty. -/
theorem drainPackLoop_eq_packBins (strat : StrategyFn) (bins : Bins) (l : List Nat) :
    drainPackLoop strat bins l = (packBins strat bins l.reverse, []) := by
  induction l using List.reverseRecOn generalizing bins with
  | nil => simp [drainPackLoop, popBack, packBins]
  | append_singleton xs a ih =>
    rw [drainPackLoop, popBack_append_singleton]
    dsimp only
    rw [ih]
    simp [packBins]

/-! ## `ModifiedFirstFitDecreasing::pack_all` (src/offline.rs) -/

/-- The classification loop of `ModifiedFirstFitDecreasing::pack_all`:
`items.drain(..)` sends each item to the large / medium / small / tiny
vector by comparing its size with `capacity/2`, `capacity/3`, `capacity/6`
(integer division), keeping the original relative order in each class. -/
def classify (C : Nat) : List Nat → List Nat × List Nat × List Nat × List Nat
  | [] => ([], [], [], [])
  | s :: rest =>
    let (lg, med, sm, ti) := classify C rest
    if C / 2 < s then (s :: lg, med, sm, ti)
    else if C / 3 < s then (lg, s :: med, sm, ti)
    else if C / 6 < s then (lg, med, s :: sm, ti)
    else (lg, med, sm, s :: ti)

/-- The inner `loop` of the large-item pass: starting at cursor `idx`, find
the first bin whose available capacity *strictly* exceeds the item's size
and pack there; if the cursor reaches the end of the bin vector, push a new
bin and pack into it.  Returns the bins and the cursor.  The source checks
`idx == bins.len()`; the cursor never exceeds the length (proved below), so
the `≤` test used here for termination agrees with the source's `==`. -/
def largeStep (C : Nat) (bins : Bins) (idx : Nat) (s : Nat) : Bins × Nat :=
  if bins.length ≤ idx then (bins ++ [pack [] s], idx)
  else if s < available C (bins.getD idx []) then (packAt bins idx s, idx)
  else largeStep C bins (idx + 1) s
termination_by bins.length - idx
decreasing_by omega

/-- The large-item pass: the cursor `idx` starts at 0 and persists across
items (`let mut idx = 0` outside the `for` loop). -/
def largePass (C : Nat) (bins : Bins) (idx : Nat) : List Nat → Bins × Nat
  | [] => (bins, idx)
  | s :: rest =>
    let (bins', idx') := largeStep C bins idx s
    largePass C bins' idx' rest

/-- `iter().position(p)` followed by `remove` of the found element: the
first element satisfying `p`, together with the list without it. -/
def extractFirst (p : Nat → Bool) : List Nat → Option (Nat × List Nat)
  | [] => none
  | a :: l =>
    if p a then some (a, l)
    else
      match extractFirst p l with
      | some (x, r) => some (x, a :: r)
      | none => none

/-- The medium-item pass: for each bin in order, pack the first (= largest,
the list being sorted descending) medium item that fits, and stop the walk
once the medium vector empties. -/
def mediumPass (C : Nat) : Bins → List Nat → Bins × List Nat
  | [], med => ([], med)
  | b :: rest, med =>
    match extractFirst (fun s => decide (s ≤ available C b)) med with
    | none =>
      let (bs, m) := mediumPass C rest med
      (b :: bs, m)
    | some (x, med') =>
      if med' = [] then (pack b x :: rest, [])
      else
        let (bs, m) := mediumPass C rest med'
        (pack b x :: bs, m)

/-- The small-item pass, on the *reversed* bin list (the source iterates
`bins.iter_mut().rev()`).  Per bin: stop the walk when the small vector is
empty; skip the bin when the sum of the (up to) two last = smallest items
exceeds its availability; otherwise `pop` the last = smallest item into the
bin and then additionally pack the first = largest remaining item that fits
the updated availability, if any. -/
def smallPassRev (C : Nat) : Bins → List Nat → Bins × List Nat
  | [], sl => ([], sl)
  | b :: rest, [] => (b :: rest, [])
  | b :: rest, s0 :: sl0 =>
    let sl := s0 :: sl0
    if available C b < (sl.reverse.take 2).sum then
      let (bs, s') := smallPassRev C rest sl
      (b :: bs, s')
    else
      let b1 := pack b (sl.getLastD 0)
      match extractFirst (fun x => decide (x ≤ available C b1)) sl.dropLast with
      | some (x, sl2) =>
        let (bs, s') := smallPassRev C rest sl2
        (pack b1 x :: bs, s')
      | none =>
        let (bs, s') := smallPassRev C rest sl.dropLast
        (b1 :: bs, s')

/-- `l.first()` repeatedly: pack the head of the vector into the bin while
it fits, returning the bin and what is left of the vector. -/
def packWhileFit (C : Nat) : Bin → List Nat → Bin × List Nat
  | b, [] => (b, [])
  | b, a :: r =>
    if a ≤ available C b then packWhileFit C (pack b a) r else (b, a :: r)

/-- The final in-place pass: for each bin in order, greedily pack the heads
of the medium, then small, then tiny vectors while they fit. -/
def tinyPass (C : Nat) :
    Bins → List Nat → List Nat → List Nat → Bins × List Nat × List Nat × List Nat
  | [], med, sl, ti => ([], med, sl, ti)
  | b :: rest, med, sl, ti =>
    let (b1, med') := packWhileFit C b med
    let (b2, sl') := packWhileFit C b1 sl
    let (b3, ti') := packWhileFit C b2 ti
    let (bs, out) := tinyPass C rest med' sl' ti'
    (b3 :: bs, out)

/-- `ModifiedFirstFitDecreasing::pack_all` (the src/offline.rs version):
classify, run the four passes, then hand the remainder to
`FirstFitDecreasing`.  The item vector is drained at classification. -/
def mffdPackAll (C : Nat) (bins : Bins) (items : List Nat) : Bins × List Nat :=
  let (lg, med, sm, ti) := classify C items
  let (bins1, _) := largePass C bins 0 (sortDesc lg)
  let (bins2, med1) := mediumPass C bins1 (sortDesc med)
  let (rev3, sm1) := smallPassRev C bins2.reverse (sortDesc sm)
  let bins3 := rev3.reverse
  let (bins4, med2, sm2, ti1) := tinyPass C bins3 med1 sm1 (sortDesc ti)
  let remainder := med2 ++ sm2 ++ ti1
  ((ffdPackAll C bins4 remainder).1, [])

/-! ## The large-item pass of the src/lib.rs copy of
`ModifiedFirstFitDecreasing::pack_all`, which indexes `bins[idx]` *before*
comparing `idx` with `bins.len()`.  An out-of-bounds index panics in Rust,
modelled by `none`. -/

/-- The inner `loop` of the lib.rs large-item pass: read `bins[idx]` first
(panic = `none` when out of bounds), pack on a strict fit, otherwise
increment the cursor and only then test it against the length. -/
def largeStepLib (C : Nat) (bins : Bins) (idx : Nat) (s : Nat) :
    Option (Bins × Nat) :=
  match h : bins[idx]? with
  | none => none
  | some b =>
    if s < available C b then some (packAt bins idx s, idx)
    else if idx + 1 = bins.length then some (bins ++ [pack [] s], idx + 1)
    else largeStepLib C bins (idx + 1) s
termination_by bins.length - idx
decreasing_by
  have : idx < bins.length := by
    by_contra hge
    rw [List.getElem?_eq_none (by omega)] at h
    exact Option.noConfusion h
  omega

/-- The lib.rs large-item pass over the sorted large items. -/
def largePassLib (C : Nat) (bins : Bins) (idx : Nat) :
    List Nat → Option (Bins × Nat)
  | [] => some (bins, idx)
  | s :: rest =>
    match largeStepLib C bins idx s with
    | none => none
    | some (bins', idx') => largePassLib C bins' idx' rest

/-! ## Properties of the descending sort -/

/-- Sorted in descending (non-increasing) order. -/
def SortedDesc (l : List Nat) : Prop := List.Pairwise (fun a b => b ≤ a) l

instance (l : List Nat) : Decidable (SortedDesc l) :=
  inferInstanceAs (Decidable (List.Pairwise _ l))

theorem insertDesc_perm (a : Nat) (l : List Nat) :
    List.Perm (insertDesc a l) (a :: l) := by
  induction l with
  | nil => simp [insertDesc]
  | cons b r ih =>
    by_cases h : b < a
    · simp [insertDesc, h]
    · simp only [insertDesc, if_neg h]
      exact ((ih.cons b).trans (List.Perm.swap a b r))

theorem sortDesc_perm (l : List Nat) : List.Perm (sortDesc l) l := by
  induction l with
  | nil => simp [sortDesc]
  | cons a r ih =>
    exact (insertDesc_perm a (sortDesc r)).trans (ih.cons a)

theorem mem_sortDesc {x : Nat} {l : List Nat} : x ∈ sortDesc l ↔ x ∈ l :=
  (sortDesc_perm l).mem_iff

theorem insertDesc_sortedDesc {a : Nat} {l : List Nat} (h : SortedDesc l) :
    SortedDesc (insertDesc a l) := by
  induction l with
  | nil => simp [insertDesc, SortedDesc]
  | cons b r ih =>
    rcases h with - | ⟨hb, hr⟩
    by_cases hba : b < a
    · simp only [insertDesc, if_pos hba]
      refine List.Pairwise.cons ?_ (List.Pairwise.cons hb hr)
      intro x hx
      rcases List.mem_cons.mp hx with rfl | hx
      · omega
      · have := hb x hx; omega
    · simp only [insertDesc, if_neg hba]
      refine List.Pairwise.cons ?_ (ih hr)
      intro x hx
      have := (insertDesc_perm a r).mem_iff.mp hx
      rcases List.mem_cons.mp this with rfl | hx'
      · omega
      · exact hb x hx'

theorem sortDesc_sortedDesc (l : List Nat) : SortedDesc (sortDesc l) := by
  induction l with
  | nil => simp [sortDesc, SortedDesc]
  | cons a r ih => exact insertDesc_sortedDesc ih

/-- The reverse of the descending sort is sorted ascending. -/
theorem sortDesc_reverse_sorted (l : List Nat) :
    List.Pairwise (fun a b => a ≤ b) (sortDesc l).reverse := by
  rw [List.pairwise_reverse]
  exact sortDesc_sortedDesc l

/-! ## Characterisation of the online strategies -/

/-- `item.size() <= bin.available()`: the bin at index `i` of `bins` can
take an item of size `s`. -/
def fitsAt (C : Nat) (bins : Bins) (s : Nat) (i : Nat) : Prop :=
  s ≤ available C (bins.getD i [])

instance (C bins s i) : Decidable (fitsAt C bins s i) := by
  unfold fitsAt; infer_instance

theorem firstFitGo_eq_some {C s : Nat} {l : List Bin} {i0 i : Nat} :
    firstFitGo C s l i0 = some i ↔
      ∃ k, k < l.length ∧ i = i0 + k ∧ s ≤ available C (l.getD k []) ∧
        ∀ j, j < k → ¬ s ≤ available C (l.getD j []) := by
  induction l generalizing i0 with
  | nil => simp [firstFitGo]
  | cons b rest ih =>
    by_cases h : s ≤ available C b
    · simp only [firstFitGo, if_pos h]
      constructor
      · rintro h'
        have : i0 = i := Option.some.inj h'
        exact ⟨0, by simp, by omega, by simpa using h, by omega⟩
      · rintro ⟨k, hk, hi, hfit, hmin⟩
        rcases Nat.eq_zero_or_pos k with rfl | hkpos
        · simp [hi]
        · exact absurd (by simpa using h) (hmin 0 hkpos)
    · simp only [firstFitGo, if_neg h]
      rw [ih]
      constructor
      · rintro ⟨k, hk, rfl, hfit, hmin⟩
        refine ⟨k + 1, by simpa using hk, by omega, by simpa using hfit, ?_⟩
        intro j hj
        cases j with
        | zero => simpa using h
        | succ j' => simpa using hmin j' (by omega)
      · rintro ⟨k, hk, hi, hfit, hmin⟩
        cases k with
        | zero => exact absurd (by simpa using hfit) h
        | succ k' =>
          refine ⟨k', by simpa using hk, by omega, by simpa using hfit, ?_⟩
          intro j hj
          simpa using hmin (j + 1) (by omega)

theorem firstFitGo_eq_none {C s : Nat} {l : List Bin} {i0 : Nat} :
    firstFitGo C s l i0 = none ↔
      ∀ j, j < l.length → ¬ s ≤ available C (l.getD j []) := by
  induction l generalizing i0 with
  | nil => simp [firstFitGo]
  | cons b rest ih =>
    by_cases h : s ≤ available C b
    · simp only [firstFitGo, if_pos h]
      constructor
      · intro h'; exact Option.noConfusion h'
      · intro h'; exact absurd (by simpa using h) (h' 0 (by simp))
    · simp only [firstFitGo, if_neg h]
      rw [ih]
      constructor
      · intro h' j hj
        cases j with
        | zero => simpa using h
        | succ j' => simpa using h' j' (by simpa using hj)
      · intro h' j hj
        simpa using h' (j + 1) (by simpa using hj)

/-- `FirstFit::next_idx` returns the least fitting index. -/
theorem firstFit_eq_some {C : Nat} {bins : Bins} {s i : Nat} :
    firstFit C bins s = some i ↔
      i < bins.length ∧ fitsAt C bins s i ∧ ∀ j, j < i → ¬ fitsAt C bins s j := by
  unfold firstFit fitsAt
  rw [firstFitGo_eq_some]
  constructor
  · rintro ⟨k, hk, rfl, hfit, hmin⟩
    exact ⟨by simpa using hk, by simpa using hfit,
      fun j hj => by simpa using hmin j (by omega)⟩
  · rintro ⟨hi, hfit, hmin⟩
    exact ⟨i, hi, by omega, hfit, hmin⟩

/-- `FirstFit::next_idx` returns `None` exactly when no bin fits. -/
theorem firstFit_eq_none {C : Nat} {bins : Bins} {s : Nat} :
    firstFit C bins s = none ↔ ∀ j, j < bins.length → ¬ fitsAt C bins s j := by
  unfold firstFit fitsAt
  exact firstFitGo_eq_none

/-- The index `BestFit::next_idx` must return: a fitting bin of minimal
availability, the lowest such index. -/
def IsBestFit (C : Nat) (bins : Bins) (s : Nat) (i : Nat) : Prop :=
  i < bins.length ∧ fitsAt C bins s i ∧
    (∀ k, k < bins.length → fitsAt C bins s k →
      available C (bins.getD i []) ≤ available C (bins.getD k [])) ∧
    (∀ k, k < i → fitsAt C bins s k →
      available C (bins.getD i []) < available C (bins.getD k []))

/-- Loop invariant of `BestFit::next_idx` after the first `n` bins: no
fitting bin seen yet, or `best` is the tightest fitting index so far,
lowest among ties. -/
def BFInv (C : Nat) (all : Bins) (s : Nat) (n : Nat) : Option Nat → Prop
  | none => ∀ j, j < n → ¬ fitsAt C all s j
  | some j =>
    j < n ∧ j < all.length ∧ fitsAt C all s j ∧
      (∀ k, k < n → fitsAt C all s k →
        available C (all.getD j []) ≤ available C (all.getD k [])) ∧
      (∀ k, k < j → fitsAt C all s k →
        available C (all.getD j []) < available C (all.getD k []))

/-- What holds of the returned value once the whole slice was walked. -/
def BFFinal (C : Nat) (all : Bins) (s : Nat) : Option Nat → Prop
  | none => ∀ j, j < all.length → ¬ fitsAt C all s j
  | some j => IsBestFit C all s j

theorem getD_of_drop_cons {α : Type} {d : α} :
    ∀ {l : List α} {n : Nat} {b : α} {t : List α},
      l.drop n = b :: t → l.getD n d = b := by
  intro l
  induction l with
  | nil => intro n b t h; simp at h
  | cons a l' ih =>
    intro n b t h
    cases n with
    | zero => simpa using congrArg (fun x => x.headD d) h
    | succ n' => exact ih (by simpa using h)

theorem bestFitGo_final {C s : Nat} {all : Bins} :
    ∀ (l : List Bin) (n : Nat) (best : Option Nat),
      all.drop n = l → BFInv C all s n best →
      BFFinal C all s (bestFitGo C s all (List.enumFrom n l) best) := by
  intro l
  induction l with
  | nil =>
    intro n best hdrop hinv
    have hlen : all.length ≤ n := by
      have := congrArg List.length hdrop
      simp [List.length_drop] at this
      omega
    cases best with
    | none =>
      simp only [List.enumFrom, bestFitGo, BFFinal]
      intro j hj
      exact hinv j (by omega)
    | some j =>
      simp only [List.enumFrom, bestFitGo, BFFinal]
      obtain ⟨-, hjlen, hfit, hmin, hstrict⟩ := hinv
      exact ⟨hjlen, hfit, fun k hk => hmin k (by omega), hstrict⟩
  | cons b l' ih =>
    intro n best hdrop hinv
    have hn : n < all.length := by
      by_contra hge
      rw [List.drop_eq_nil_of_le (by omega)] at hdrop
      exact List.noConfusion hdrop
    have hb : all.getD n [] = b := getD_of_drop_cons hdrop
    have hdrop' : all.drop (n + 1) = l' := by
      have := congrArg List.tail hdrop
      simpa [List.tail_drop] using this
    simp only [List.enumFrom, bestFitGo]
    by_cases hfitb : s ≤ available C b
    · rw [if_pos hfitb]
      have hfitn : fitsAt C all s n := by rw [fitsAt, hb]; exact hfitb
      cases best with
      | none =>
        apply ih (n + 1) (some n) hdrop'
        refine ⟨by omega, hn, hfitn, ?_, ?_⟩
        · intro k hk hkfit
          rcases Nat.lt_succ_iff_lt_or_eq.mp hk with hk' | rfl
          · exact absurd hkfit (hinv k hk')
          · exact Nat.le_refl _
        · intro k hk hkfit
          exact absurd hkfit (hinv k (by omega))
      | some j =>
        obtain ⟨hjn, hjlen, hjfit, hjmin, hjstrict⟩ := hinv
        dsimp only
        by_cases hlt : available C b < available C (all.getD j [])
        · rw [if_pos hlt]
          apply ih (n + 1) (some n) hdrop'
          refine ⟨by omega, hn, hfitn, ?_, ?_⟩
          · intro k hk hkfit
            rcases Nat.lt_succ_iff_lt_or_eq.mp hk with hk' | rfl
            · have := hjmin k hk' hkfit
              rw [hb]; omega
            · exact Nat.le_refl _
          · intro k hk hkfit
            have := hjmin k (by omega) hkfit
            rw [hb]; omega
        · rw [if_neg hlt]
          apply ih (n + 1) (some j) hdrop'
          refine ⟨by omega, hjlen, hjfit, ?_, hjstrict⟩
          intro k hk hkfit
          rcases Nat.lt_succ_iff_lt_or_eq.mp hk with hk' | rfl
          · exact hjmin k hk' hkfit
          · rw [hb]; omega
    · rw [if_neg hfitb]
      have hnofit : ¬ fitsAt C all s n := by rw [fitsAt, hb]; exact hfitb
      cases best with
      | none =>
        apply ih (n + 1) none hdrop'
        intro j hj
        rcases Nat.lt_succ_iff_lt_or_eq.mp hj with hj' | rfl
        · exact hinv j hj'
        · exact hnofit
      | some j =>
        obtain ⟨hjn, hjlen, hjfit, hjmin, hjstrict⟩ := hinv
        apply ih (n + 1) (some j) hdrop'
        refine ⟨by omega, hjlen, hjfit, ?_, hjstrict⟩
        intro k hk hkfit
        rcases Nat.lt_succ_iff_lt_or_eq.mp hk with hk' | rfl
        · exact hjmin k hk' hkfit
        · exact absurd hkfit hnofit

theorem bestFit_final (C : Nat) (bins : Bins) (s : Nat) :
    BFFinal C bins s (bestFit C bins s) := by
  unfold bestFit
  rw [List.enum_eq_enumFrom]
  exact bestFitGo_final bins 0 none (by simp) (by intro j hj; omega)

/-- `BestFit::next_idx` returns exactly the tightest-fit index. -/
theorem bestFit_eq_some {C : Nat} {bins : Bins} {s i : Nat} :
    bestFit C bins s = some i ↔ IsBestFit C bins s i := by
  have hfin := bestFit_final C bins s
  constructor
  · intro h
    rw [h] at hfin
    exact hfin
  · intro hi
    cases hr : bestFit C bins s with
    | none =>
      rw [hr] at hfin
      exact absurd hi.2.1 (hfin i hi.1)
    | some j =>
      rw [hr] at hfin
      obtain ⟨hjlen, hjfit, hjmin, hjstrict⟩ := hfin
      obtain ⟨hilen, hifit, himin, histrict⟩ := hi
      have h1 := hjmin i hilen hifit
      have h2 := himin j hjlen hjfit
      have : i = j := by
        by_contra hne
        rcases Nat.lt_or_ge i j with hij | hij
        · have := hjstrict i hij hifit; omega
        · have := histrict j (by omega) hjfit; omega
      rw [this]

/-- `BestFit::next_idx` returns `None` exactly when no bin fits. -/
theorem bestFit_eq_none {C : Nat} {bins : Bins} {s : Nat} :
    bestFit C bins s = none ↔ ∀ j, j < bins.length → ¬ fitsAt C bins s j := by
  have hfin := bestFit_final C bins s
  constructor
  · intro h
    rw [h] at hfin
    exact hfin
  · intro hno
    cases hr : bestFit C bins s with
    | none => rfl
    | some j =>
      rw [hr] at hfin
      exact absurd hfin.2.1 (hno j hfin.1)

/-! ## Validity of the strategies and the capacity invariant -/

/-- A strategy honours the `next_idx` contract: a returned index is in
bounds and its bin has room for the item. -/
def ValidStrategy (C : Nat) (strat : StrategyFn) : Prop :=
  ∀ bins s i, strat bins s = some i → i < bins.length ∧ fitsAt C bins s i

theorem firstFit_valid (C : Nat) : ValidStrategy C (firstFit C) := by
  intro bins s i h
  have := firstFit_eq_some.mp h
  exact ⟨this.1, this.2.1⟩

theorem bestFit_valid (C : Nat) : ValidStrategy C (bestFit C) := by
  intro bins s i h
  have := bestFit_eq_some.mp h
  exact ⟨this.1, this.2.1⟩

theorem nextFit_valid (C : Nat) : ValidStrategy C (nextFit C) := by
  intro bins s i h
  unfold nextFit at h
  cases hl : bins.getLast? with
  | none => rw [hl] at h; exact Option.noConfusion h
  | some b =>
    rw [hl] at h
    dsimp only at h
    by_cases hfit : s ≤ available C b
    · rw [if_pos hfit] at h
      have hi : i = bins.length - 1 := (Option.some.inj h).symm
      have hne : bins ≠ [] := by
        intro hnil
        rw [hnil] at hl
        simp at hl
      have hlen : 0 < bins.length := List.length_pos.mpr hne
      have hgl : bins.getD (bins.length - 1) [] = b := by
        rw [List.getLast?_eq_getElem?] at hl
        rw [List.getD_eq_getElem?_getD, hl]
        rfl
      refine ⟨by omega, ?_⟩
      rw [fitsAt, hi, hgl]
      exact hfit
    · rw [if_neg hfit] at h
      exact Option.noConfusion h

/-- All packed-size sums stay at most the capacity. -/
def CapOK (C : Nat) (bins : Bins) : Prop := ∀ b ∈ bins, b.sum ≤ C

theorem getD_mem {α : Type} {l : List α} {n : Nat} {d : α}
    (h : n < l.length) : l.getD n d ∈ l := by
  induction l generalizing n with
  | nil => simp at h
  | cons a l' ih =>
    cases n with
    | zero => simp
    | succ n' =>
      have := ih (n := n') (by simpa using h)
      rw [List.getD_cons_succ]
      exact List.mem_cons_of_mem a this

theorem capOK_packAt {C : Nat} {bins : Bins} {i s : Nat}
    (hcap : CapOK C bins) (hfit : fitsAt C bins s i) :
    CapOK C (packAt bins i s) := by
  intro b hb
  rcases List.mem_or_eq_of_mem_set hb with hmem | rfl
  · exact hcap b hmem
  · rw [fitsAt, available] at hfit
    by_cases hi : i < bins.length
    · have hsum := hcap _ (getD_mem (d := ([] : Bin)) hi)
      rw [pack, List.sum_cons]
      omega
    · rw [List.getD_eq_default _ _ (by omega)] at hfit ⊢
      simpa [pack] using hfit

theorem capOK_packBins {C : Nat} {strat : StrategyFn} (hv : ValidStrategy C strat) :
    ∀ {items : List Nat} {bins : Bins}, CapOK C bins → (∀ s ∈ items, s ≤ C) →
      CapOK C (packBins strat bins items) := by
  intro items
  induction items with
  | nil => intro bins hcap _; simpa [packBins] using hcap
  | cons s rest ih =>
    intro bins hcap hsz
    have hs : s ≤ C := hsz s (by simp)
    have hrest : ∀ x ∈ rest, x ≤ C := fun x hx => hsz x (by simp [hx])
    show CapOK C (packBins strat _ (s :: rest))
    rw [packBins, List.foldl_cons]
    cases hstrat : strat bins s with
    | some i =>
      have ⟨hin, hfit⟩ := hv bins s i hstrat
      exact ih (capOK_packAt hcap hfit) hrest
    | none =>
      refine ih ?_ hrest
      intro b hb
      rcases List.mem_append.mp hb with hmem | hmem
      · exact hcap b hmem
      · simp at hmem
        simp [hmem, pack, hs]

/-- Packing at a valid index adds exactly that item to the flattened
contents (as a multiset). -/
theorem flatten_packAt_perm {bins : Bins} {i s : Nat} (hi : i < bins.length) :
    List.Perm (packAt bins i s).flatten (s :: bins.flatten) := by
  induction bins generalizing i with
  | nil => simp at hi
  | cons b rest ih =>
    cases i with
    | zero => simp [packAt, pack]
    | succ i' =>
      have hi' : i' < rest.length := by simpa using hi
      have h1 := ih hi'
      simp only [packAt, List.getD_cons_succ, List.set_cons_succ,
        List.flatten_cons] at h1 ⊢
      refine (h1.append_left b).trans ?_
      exact @List.perm_middle _ s b rest.flatten

/-- `pack_bins` conserves items: the flattened result is a permutation of
the flattened input bins plus the item list. -/
theorem packBins_flatten_perm {C : Nat} {strat : StrategyFn} (hv : ValidStrategy C strat) :
    ∀ {items : List Nat} {bins : Bins},
      List.Perm (packBins strat bins items).flatten (bins.flatten ++ items) := by
  intro items
  induction items with
  | nil => simp [packBins]
  | cons s rest ih =>
    intro bins
    rw [packBins, List.foldl_cons]
    cases hstrat : strat bins s with
    | some i =>
      have ⟨hin, _⟩ := hv bins s i hstrat
      show List.Perm (packBins strat (packAt bins i s) rest).flatten _
      refine (@ih (packAt bins i s)).trans ?_
      refine ((flatten_packAt_perm hin).append_right rest).trans ?_
      exact (@List.perm_middle _ s bins.flatten rest).symm
    | none =>
      show List.Perm (packBins strat (bins ++ [pack [] s]) rest).flatten _
      refine (@ih (bins ++ [pack [] s])).trans ?_
      have he : (bins ++ [pack [] s]).flatten ++ rest
          = bins.flatten ++ (s :: rest) := by
        simp [pack]
      rw [he]

/-! ## `pack_existing_bins` -/

/-- Pack a list of items into the fixed bins, `none` as soon as the
strategy misses: the all-hits run `pack_existing_bins` performs on the
consumed prefix. -/
def packAllHits (strat : StrategyFn) (bins : Bins) : List Nat → Option Bins
  | [] => some bins
  | s :: rest =>
    match strat bins s with
    | some i => packAllHits strat (packAt bins i s) rest
    | none => none

theorem packExistingBins_length (strat : StrategyFn) :
    ∀ (items : List Nat) (bins : Bins),
      (packExistingBins strat bins items).1.length = bins.length := by
  intro items
  induction items with
  | nil => intro bins; simp [packExistingBins]
  | cons s rest ih =>
    intro bins
    rw [packExistingBins]
    cases strat bins s with
    | some i =>
      dsimp only
      rw [ih]
      simp [packAt]
    | none => rfl

/-- `pack_existing_bins` consumes a maximal all-hits prefix: the leftover
is a suffix `items.drop k`, the bins are the all-hits run on `items.take k`,
and when anything is left, its first item is one the strategy cannot place
in the resulting bins. -/
theorem packExistingBins_spec (strat : StrategyFn) :
    ∀ (items : List Nat) (bins : Bins),
      ∃ k, k ≤ items.length ∧
        (packExistingBins strat bins items).2 = items.drop k ∧
        packAllHits strat bins (items.take k) =
          some (packExistingBins strat bins items).1 ∧
        (k < items.length →
          strat (packExistingBins strat bins items).1 (items.getD k 0) = none) := by
  intro items
  induction items with
  | nil =>
    intro bins
    exact ⟨0, by simp, by simp [packExistingBins], by simp [packExistingBins, packAllHits],
      by intro h; simp at h⟩
  | cons s rest ih =>
    intro bins
    rw [packExistingBins]
    cases hstrat : strat bins s with
    | none =>
      refine ⟨0, by simp, by simp, by simp [packAllHits], ?_⟩
      intro
      simpa using hstrat
    | some i =>
      obtain ⟨k, hk, hdrop, hhits, hmiss⟩ := ih (packAt bins i s)
      refine ⟨k + 1, by simpa using hk, by simpa using hdrop, ?_, ?_⟩
      · rw [List.take_succ_cons, packAllHits, hstrat]
        exact hhits
      · intro hlt
        have := hmiss (by simpa using hlt)
        simpa using this

theorem capOK_packExistingBins {C : Nat} {strat : StrategyFn}
    (hv : ValidStrategy C strat) :
    ∀ {items : List Nat} {bins : Bins}, CapOK C bins →
      CapOK C (packExistingBins strat bins items).1 := by
  intro items
  induction items with
  | nil => intro bins h; simpa [packExistingBins] using h
  | cons s rest ih =>
    intro bins hcap
    rw [packExistingBins]
    cases hstrat : strat bins s with
    | some i =>
      have ⟨_, hfit⟩ := hv bins s i hstrat
      exact ih (capOK_packAt hcap hfit)
    | none => exact hcap

/-! ## The medium-item pass -/

theorem extractFirst_none {p : Nat → Bool} :
    ∀ {l : List Nat}, extractFirst p l = none ↔ ∀ x ∈ l, ¬ p x := by
  intro l
  induction l with
  | nil => simp [extractFirst]
  | cons a t ih =>
    by_cases hpa : p a
    · simp [extractFirst, hpa]
    · rw [extractFirst, if_neg hpa]
      cases he : extractFirst p t with
      | none =>
        rw [he] at ih
        constructor
        · intro _ x hx
          rcases List.mem_cons.mp hx with rfl | hx'
          · exact hpa
          · exact ih.mp rfl x hx'
        · intro _; rfl
      | some pr =>
        obtain ⟨x, r⟩ := pr
        constructor
        · intro h; exact Option.noConfusion h
        · intro h
          have : extractFirst p t = none := by
            rw [ih]
            intro y hy
            exact h y (by simp [hy])
          rw [he] at this
          exact Option.noConfusion this

theorem extractFirst_some {p : Nat → Bool} :
    ∀ {l : List Nat} {x : Nat} {r : List Nat},
      extractFirst p l = some (x, r) →
      p x ∧ List.Perm l (x :: r) ∧ (∀ y ∈ r, y ∈ l) ∧ x ∈ l := by
  intro l
  induction l with
  | nil => intro x r h; simp [extractFirst] at h
  | cons a t ih =>
    intro x r h
    by_cases hpa : p a
    · rw [extractFirst, if_pos hpa] at h
      obtain ⟨rfl, rfl⟩ : a = x ∧ t = r := by
        have := Option.some.inj h
        exact ⟨congrArg Prod.fst this, congrArg Prod.snd this⟩
      exact ⟨hpa, List.Perm.refl _, fun y hy => by simp [hy], by simp⟩
    · rw [extractFirst, if_neg hpa] at h
      cases he : extractFirst p t with
      | none => rw [he] at h; exact Option.noConfusion h
      | some pr =>
        obtain ⟨x', r'⟩ := pr
        rw [he] at h
        obtain ⟨rfl, rfl⟩ : x' = x ∧ a :: r' = r := by
          have := Option.some.inj h
          exact ⟨congrArg Prod.fst this, congrArg Prod.snd this⟩
        obtain ⟨hp, hperm, hsub, hmem⟩ := ih he
        refine ⟨hp, ?_, ?_, by simp [hmem]⟩
        · exact (hperm.cons a).trans (List.Perm.swap _ _ _)
        · intro y hy
          rcases List.mem_cons.mp hy with rfl | hy'
          · simp
          · simp [hsub y hy']

/-- The first list element satisfying a monotone-below predicate in a
descending-sorted list is the maximum among the satisfying elements. -/
theorem extractFirst_max_of_sortedDesc {p : Nat → Bool} {l : List Nat}
    {x : Nat} {r : List Nat} (hs : SortedDesc l)
    (hmono : ∀ a b, a ≤ b → p b → p a)
    (h : extractFirst p l = some (x, r)) :
    ∀ y ∈ r, p y → y ≤ x := by
  induction l generalizing r with
  | nil => simp [extractFirst] at h
  | cons a t ih =>
    rcases hs with - | ⟨ha, ht⟩
    by_cases hpa : p a
    · rw [extractFirst, if_pos hpa] at h
      obtain ⟨rfl, rfl⟩ : a = x ∧ t = r := by
        have := Option.some.inj h
        exact ⟨congrArg Prod.fst this, congrArg Prod.snd this⟩
      intro y hy _
      exact ha y hy
    · rw [extractFirst, if_neg hpa] at h
      cases he : extractFirst p t with
      | none => rw [he] at h; exact Option.noConfusion h
      | some pr =>
        obtain ⟨x', r'⟩ := pr
        rw [he] at h
        obtain ⟨rfl, rfl⟩ : x' = x ∧ a :: r' = r := by
          have := Option.some.inj h
          exact ⟨congrArg Prod.fst this, congrArg Prod.snd this⟩
        intro y hy hpy
        rcases List.mem_cons.mp hy with rfl | hy'
        · exact absurd hpy hpa
        · exact ih ht he y hy' hpy

theorem mediumPass_capOK {C : Nat} :
    ∀ {bins : Bins} {med : List Nat}, CapOK C bins →
      CapOK C (mediumPass C bins med).1 := by
  intro bins
  induction bins with
  | nil => intro med h; simpa [mediumPass] using h
  | cons b rest ih =>
    intro med hcap
    have hb : b.sum ≤ C := hcap b (by simp)
    have hrest : CapOK C rest := fun x hx => hcap x (by simp [hx])
    rw [mediumPass]
    cases he : extractFirst (fun s => decide (s ≤ available C b)) med with
    | none =>
      dsimp only
      intro y hy
      rcases List.mem_cons.mp hy with rfl | hy'
      · exact hb
      · exact ih hrest y hy'
    | some pr =>
      obtain ⟨x, med'⟩ := pr
      have hx : x ≤ available C b := by
        have := (extractFirst_some he).1
        simpa using this
      have hpacked : (pack b x).sum ≤ C := by
        rw [pack, List.sum_cons]
        rw [available] at hx
        omega
      dsimp only
      by_cases hmt : med' = []
      · rw [if_pos hmt]
        intro y hy
        rcases List.mem_cons.mp hy with rfl | hy'
        · exact hpacked
        · exact hrest y hy'
      · rw [if_neg hmt]
        dsimp only
        intro y hy
        rcases List.mem_cons.mp hy with rfl | hy'
        · exact hpacked
        · exact ih hrest y hy'

theorem mediumPass_flatten_perm {C : Nat} :
    ∀ {bins : Bins} {med : List Nat},
      List.Perm ((mediumPass C bins med).1.flatten ++ (mediumPass C bins med).2)
        (bins.flatten ++ med) := by
  intro bins
  induction bins with
  | nil => intro med; simp [mediumPass]
  | cons b rest ih =>
    intro med
    rw [mediumPass]
    cases he : extractFirst (fun s => decide (s ≤ available C b)) med with
    | none =>
      dsimp only
      simp only [List.flatten_cons, List.append_assoc]
      exact (@ih med).append_left b
    | some pr =>
      obtain ⟨x, med'⟩ := pr
      have hperm : List.Perm med (x :: med') := (extractFirst_some he).2.1
      dsimp only
      by_cases hmt : med' = []
      · subst hmt
        rw [if_pos rfl]
        rw [← Multiset.coe_eq_coe] at hperm ⊢
        simp only [List.flatten_cons, pack, ← Multiset.coe_add, ← Multiset.cons_coe,
          ← Multiset.singleton_add] at hperm ⊢
        rw [hperm]
        abel
      · rw [if_neg hmt]
        dsimp only
        have hih := @ih med'
        rw [← Multiset.coe_eq_coe] at hperm hih ⊢
        simp only [List.flatten_cons, pack, ← Multiset.coe_add, ← Multiset.cons_coe,
          ← Multiset.singleton_add] at hperm hih ⊢
        rw [hperm, add_assoc, hih]
        abel

/-! ## The small-item pass -/

theorem dropLast_append_getLastD :
    ∀ (t : List Nat) (a d : Nat),
      (a :: t).dropLast ++ [(a :: t).getLastD d] = a :: t := by
  intro t
  induction t with
  | nil => intro a d; simp
  | cons b t' ih =>
    intro a d
    rw [List.dropLast_cons₂, List.getLastD_cons]
    rw [List.cons_append, ih b a]

theorem getLastD_le_take2_sum (s0 : Nat) (sl0 : List Nat) :
    (s0 :: sl0).getLastD 0 ≤ (((s0 :: sl0).reverse).take 2).sum := by
  have h := dropLast_append_getLastD sl0 s0 0
  have hrev : (s0 :: sl0).reverse
      = (s0 :: sl0).getLastD 0 :: (s0 :: sl0).dropLast.reverse := by
    conv_lhs => rw [← h]
    simp
  rw [hrev]
  cases hdl : (s0 :: sl0).dropLast.reverse with
  | nil => simp
  | cons y ys => simp [List.take]

theorem smallPassRev_capOK {C : Nat} :
    ∀ {bins : Bins} {sl : List Nat}, CapOK C bins →
      CapOK C (smallPassRev C bins sl).1 := by
  intro bins
  induction bins with
  | nil => intro sl h; simpa [smallPassRev] using h
  | cons b rest ih =>
    intro sl hcap
    have hb : b.sum ≤ C := hcap b (by simp)
    have hrest : CapOK C rest := fun x hx => hcap x (by simp [hx])
    match sl with
    | [] => simpa [smallPassRev] using hcap
    | s0 :: sl0 =>
      rw [smallPassRev]
      by_cases hskip : available C b < ((s0 :: sl0).reverse.take 2).sum
      · rw [if_pos hskip]
        dsimp only
        intro y hy
        rcases List.mem_cons.mp hy with rfl | hy'
        · exact hb
        · exact ih hrest y hy'
      · rw [if_neg hskip]
        dsimp only
        have hlast : (s0 :: sl0).getLastD 0 ≤ available C b :=
          le_trans (getLastD_le_take2_sum s0 sl0) (by omega)
        have hb1 : (pack b ((s0 :: sl0).getLastD 0)).sum ≤ C := by
          rw [pack, List.sum_cons]
          rw [available] at hlast
          omega
        cases he : extractFirst
            (fun x => decide (x ≤ available C (pack b ((s0 :: sl0).getLastD 0))))
            (s0 :: sl0).dropLast with
        | some pr =>
          obtain ⟨x, sl2⟩ := pr
          dsimp only
          have hx : x ≤ available C (pack b ((s0 :: sl0).getLastD 0)) := by
            have := (extractFirst_some he).1
            simpa using this
          have hb2 : (pack (pack b ((s0 :: sl0).getLastD 0)) x).sum ≤ C := by
            rw [pack, List.sum_cons]
            rw [available] at hx
            omega
          intro y hy
          rcases List.mem_cons.mp hy with rfl | hy'
          · exact hb2
          · exact ih hrest y hy'
        | none =>
          dsimp only
          intro y hy
          rcases List.mem_cons.mp hy with rfl | hy'
          · exact hb1
          · exact ih hrest y hy'

theorem smallPassRev_flatten_perm {C : Nat} :
    ∀ {bins : Bins} {sl : List Nat},
      List.Perm ((smallPassRev C bins sl).1.flatten ++ (smallPassRev C bins sl).2)
        (bins.flatten ++ sl) := by
  intro bins
  induction bins with
  | nil => intro sl; simp [smallPassRev]
  | cons b rest ih =>
    intro sl
    match sl with
    | [] => simp [smallPassRev]
    | s0 :: sl0 =>
      rw [smallPassRev]
      by_cases hskip : available C b < ((s0 :: sl0).reverse.take 2).sum
      · rw [if_pos hskip]
        dsimp only
        simp only [List.flatten_cons, List.append_assoc]
        exact (@ih (s0 :: sl0)).append_left b
      · rw [if_neg hskip]
        dsimp only
        have hsplit := dropLast_append_getLastD sl0 s0 0
        cases he : extractFirst
            (fun x => decide (x ≤ available C (pack b ((s0 :: sl0).getLastD 0))))
            (s0 :: sl0).dropLast with
        | some pr =>
          obtain ⟨x, sl2⟩ := pr
          dsimp only
          have hpermdl : List.Perm (s0 :: sl0).dropLast (x :: sl2) :=
            (extractFirst_some he).2.1
          have hih := @ih sl2
          have hsl : List.Perm (s0 :: sl0)
              (((s0 :: sl0).getLastD 0) :: x :: sl2) := by
            conv_lhs => rw [← hsplit]
            refine List.Perm.trans (List.perm_append_singleton _ _) ?_
            exact hpermdl.cons _
          rw [← Multiset.coe_eq_coe] at hih hsl ⊢
          simp only [List.flatten_cons, pack, ← Multiset.coe_add, ← Multiset.cons_coe,
            ← Multiset.singleton_add] at hih hsl ⊢
          rw [hsl, add_assoc, hih]
          abel
        | none =>
          dsimp only
          have hih := @ih (s0 :: sl0).dropLast
          have hsl : List.Perm (s0 :: sl0)
              (((s0 :: sl0).getLastD 0) :: (s0 :: sl0).dropLast) := by
            conv_lhs => rw [← hsplit]
            exact List.perm_append_singleton _ _
          rw [← Multiset.coe_eq_coe] at hih hsl ⊢
          simp only [List.flatten_cons, pack, ← Multiset.coe_add, ← Multiset.cons_coe,
            ← Multiset.singleton_add] at hih hsl ⊢
          rw [hsl, add_assoc, hih]
          abel

/-! ## The final greedy pass -/

theorem packWhileFit_capOK {C : Nat} :
    ∀ {l : List Nat} {b : Bin}, b.sum ≤ C → (packWhileFit C b l).1.sum ≤ C := by
  intro l
  induction l with
  | nil => intro b h; simpa [packWhileFit] using h
  | cons a r ih =>
    intro b hb
    rw [packWhileFit]
    by_cases hfit : a ≤ available C b
    · rw [if_pos hfit]
      refine ih ?_
      rw [pack, List.sum_cons]
      rw [available] at hfit
      omega
    · rw [if_neg hfit]
      exact hb

theorem packWhileFit_perm {C : Nat} :
    ∀ {l : List Nat} {b : Bin},
      List.Perm ((packWhileFit C b l).1 ++ (packWhileFit C b l).2) (b ++ l) := by
  intro l
  induction l with
  | nil => intro b; simp [packWhileFit]
  | cons a r ih =>
    intro b
    rw [packWhileFit]
    by_cases hfit : a ≤ available C b
    · rw [if_pos hfit]
      have hih := ih (b := pack b a)
      rw [← Multiset.coe_eq_coe] at hih ⊢
      simp only [pack, ← Multiset.coe_add, ← Multiset.cons_coe,
        ← Multiset.singleton_add] at hih ⊢
      rw [hih]
      abel
    · rw [if_neg hfit]

theorem tinyPass_capOK {C : Nat} :
    ∀ {bins : Bins} {med sl ti : List Nat}, CapOK C bins →
      CapOK C (tinyPass C bins med sl ti).1 := by
  intro bins
  induction bins with
  | nil => intro med sl ti h; simpa [tinyPass] using h
  | cons b rest ih =>
    intro med sl ti hcap
    have hb : b.sum ≤ C := hcap b (by simp)
    have hrest : CapOK C rest := fun x hx => hcap x (by simp [hx])
    rw [tinyPass]
    dsimp only
    intro y hy
    rcases List.mem_cons.mp hy with rfl | hy'
    · exact packWhileFit_capOK (packWhileFit_capOK (packWhileFit_capOK hb))
    · exact ih hrest y hy'

theorem tinyPass_flatten_perm {C : Nat} :
    ∀ {bins : Bins} {med sl ti : List Nat},
      List.Perm
        ((tinyPass C bins med sl ti).1.flatten ++ ((tinyPass C bins med sl ti).2.1
          ++ ((tinyPass C bins med sl ti).2.2.1 ++ (tinyPass C bins med sl ti).2.2.2)))
        (bins.flatten ++ (med ++ (sl ++ ti))) := by
  intro bins
  induction bins with
  | nil => intro med sl ti; simp [tinyPass]
  | cons b rest ih =>
    intro med sl ti
    rw [tinyPass]
    dsimp only
    set W1 := packWhileFit C b med with hW1
    set W2 := packWhileFit C W1.1 sl with hW2
    set W3 := packWhileFit C W2.1 ti with hW3
    set T := tinyPass C rest W1.2 W2.2 W3.2 with hT
    have h1 : List.Perm (W1.1 ++ W1.2) (b ++ med) := packWhileFit_perm
    have h2 : List.Perm (W2.1 ++ W2.2) (W1.1 ++ sl) := packWhileFit_perm
    have h3 : List.Perm (W3.1 ++ W3.2) (W2.1 ++ ti) := packWhileFit_perm
    have hih : List.Perm (T.1.flatten ++ (T.2.1 ++ (T.2.2.1 ++ T.2.2.2)))
        (rest.flatten ++ (W1.2 ++ (W2.2 ++ W3.2))) := ih
    rw [← Multiset.coe_eq_coe] at h1 h2 h3 hih ⊢
    simp only [List.flatten_cons, ← Multiset.coe_add, ← Multiset.cons_coe,
      ← Multiset.singleton_add] at h1 h2 h3 hih ⊢
    rw [add_assoc, hih]
    calc (W3.1 : Multiset Nat) + (↑rest.flatten + (↑W1.2 + (↑W2.2 + ↑W3.2)))
        = (↑W3.1 + ↑W3.2) + (↑rest.flatten + ↑W1.2 + ↑W2.2) := by abel
      _ = (↑W2.1 + ↑ti) + (↑rest.flatten + ↑W1.2 + ↑W2.2) := by rw [h3]
      _ = (↑W2.1 + ↑W2.2) + (↑rest.flatten + ↑W1.2 + ↑ti) := by abel
      _ = (↑W1.1 + ↑sl) + (↑rest.flatten + ↑W1.2 + ↑ti) := by rw [h2]
      _ = (↑W1.1 + ↑W1.2) + (↑rest.flatten + ↑sl + ↑ti) := by abel
      _ = (↑b + ↑med) + (↑rest.flatten + ↑sl + ↑ti) := by rw [h1]
      _ = ↑b + ↑rest.flatten + (↑med + (↑sl + ↑ti)) := by abel

/-! ## Classification -/

theorem classify_perm (C : Nat) :
    ∀ (items : List Nat),
      List.Perm ((classify C items).1 ++ ((classify C items).2.1
        ++ ((classify C items).2.2.1 ++ (classify C items).2.2.2))) items := by
  intro items
  induction items with
  | nil => simp [classify]
  | cons s rest ih =>
    rw [classify]
    rcases hcl : classify C rest with ⟨lg, med, sm, ti⟩
    rw [hcl] at ih
    dsimp only at ih ⊢
    by_cases h2 : C / 2 < s
    · rw [if_pos h2]
      exact ih.cons s
    · rw [if_neg h2]
      by_cases h3 : C / 3 < s
      · rw [if_pos h3]
        dsimp only
        rw [← Multiset.coe_eq_coe] at ih ⊢
        simp only [← Multiset.coe_add, ← Multiset.cons_coe,
          ← Multiset.singleton_add] at ih ⊢
        rw [← ih]
        abel
      · rw [if_neg h3]
        by_cases h6 : C / 6 < s
        · rw [if_pos h6]
          dsimp only
          rw [← Multiset.coe_eq_coe] at ih ⊢
          simp only [← Multiset.coe_add, ← Multiset.cons_coe,
            ← Multiset.singleton_add] at ih ⊢
          rw [← ih]
          abel
        · rw [if_neg h6]
          dsimp only
          rw [← Multiset.coe_eq_coe] at ih ⊢
          simp only [← Multiset.coe_add, ← Multiset.cons_coe,
            ← Multiset.singleton_add] at ih ⊢
          rw [← ih]
          abel

/-! ## The large-item pass -/

/-- Inner-loop characterisation: with the cursor in bounds, the item is
packed into the first bin at or after the cursor whose availability
*strictly* exceeds its size (cursor left there), or — when there is none —
a new bin is pushed and packed, the cursor left at the new bin's index. -/
theorem largeStep_spec {C : Nat} {bins : Bins} {idx s : Nat}
    (h : idx ≤ bins.length) :
    (∃ j, idx ≤ j ∧ j < bins.length ∧ s < available C (bins.getD j []) ∧
      (∀ m, idx ≤ m → m < j → ¬ s < available C (bins.getD m [])) ∧
      largeStep C bins idx s = (packAt bins j s, j))
    ∨ ((∀ m, idx ≤ m → m < bins.length → ¬ s < available C (bins.getD m [])) ∧
      largeStep C bins idx s = (bins ++ [pack [] s], bins.length)) := by
  suffices H : ∀ n (idx : Nat), bins.length - idx = n → idx ≤ bins.length →
      (∃ j, idx ≤ j ∧ j < bins.length ∧ s < available C (bins.getD j []) ∧
        (∀ m, idx ≤ m → m < j → ¬ s < available C (bins.getD m [])) ∧
        largeStep C bins idx s = (packAt bins j s, j))
      ∨ ((∀ m, idx ≤ m → m < bins.length → ¬ s < available C (bins.getD m [])) ∧
        largeStep C bins idx s = (bins ++ [pack [] s], bins.length)) by
    exact H _ idx rfl h
  intro n
  induction n with
  | zero =>
    intro idx hn hle
    have hidx : idx = bins.length := by omega
    right
    constructor
    · intro m hm1 hm2; omega
    · rw [largeStep, if_pos (by omega), hidx]
  | succ n ih =>
    intro idx hn hle
    have hlt : idx < bins.length := by omega
    rw [largeStep, if_neg (by omega)]
    by_cases hfit : s < available C (bins.getD idx [])
    · rw [if_pos hfit]
      left
      exact ⟨idx, Nat.le_refl idx, hlt, hfit, fun m hm1 hm2 => by omega, rfl⟩
    · rw [if_neg hfit]
      rcases ih (idx + 1) (by omega) (by omega) with
        ⟨j, hj1, hj2, hj3, hj4, hj5⟩ | ⟨hall, heq⟩
      · left
        refine ⟨j, by omega, hj2, hj3, ?_, hj5⟩
        intro m hm1 hm2
        rcases Nat.eq_or_lt_of_le hm1 with rfl | hm'
        · exact hfit
        · exact hj4 m (by omega) hm2
      · right
        refine ⟨?_, heq⟩
        intro m hm1 hm2
        rcases Nat.eq_or_lt_of_le hm1 with rfl | hm'
        · exact hfit
        · exact hall m (by omega) hm2

theorem largeStep_cursor {C : Nat} {bins : Bins} {idx s : Nat}
    (h : idx ≤ bins.length) :
    idx ≤ (largeStep C bins idx s).2 ∧
      (largeStep C bins idx s).2 ≤ (largeStep C bins idx s).1.length := by
  rcases largeStep_spec (C := C) (s := s) h with
    ⟨j, hj1, hj2, _, _, hj5⟩ | ⟨_, heq⟩
  · rw [hj5]
    constructor
    · exact hj1
    · simp [packAt]
      omega
  · rw [heq]
    refine ⟨h, ?_⟩
    simp

theorem largeStep_capOK {C : Nat} {bins : Bins} {idx s : Nat}
    (h : idx ≤ bins.length) (hcap : CapOK C bins) (hs : s ≤ C) :
    CapOK C (largeStep C bins idx s).1 := by
  rcases largeStep_spec (C := C) (s := s) h with
    ⟨j, _, hj2, hj3, _, hj5⟩ | ⟨_, heq⟩
  · rw [hj5]
    exact capOK_packAt hcap (by rw [fitsAt]; omega)
  · rw [heq]
    intro b hb
    rcases List.mem_append.mp hb with hmem | hmem
    · exact hcap b hmem
    · simp at hmem
      simp [hmem, pack, hs]

theorem largeStep_flatten_perm {C : Nat} {bins : Bins} {idx s : Nat}
    (h : idx ≤ bins.length) :
    List.Perm (largeStep C bins idx s).1.flatten (s :: bins.flatten) := by
  rcases largeStep_spec (C := C) (s := s) h with
    ⟨j, _, hj2, _, _, hj5⟩ | ⟨_, heq⟩
  · rw [hj5]
    exact flatten_packAt_perm hj2
  · rw [heq]
    rw [← Multiset.coe_eq_coe]
    simp only [List.flatten_append, List.flatten_cons, pack, List.append_nil,
      ← Multiset.coe_add, ← Multiset.cons_coe, ← Multiset.singleton_add]
    abel

theorem largePass_cursor {C : Nat} :
    ∀ {lg : List Nat} {bins : Bins} {idx : Nat}, idx ≤ bins.length →
      idx ≤ (largePass C bins idx lg).2 ∧
        (largePass C bins idx lg).2 ≤ (largePass C bins idx lg).1.length := by
  intro lg
  induction lg with
  | nil =>
    intro bins idx h
    rw [largePass]
    exact ⟨Nat.le_refl idx, h⟩
  | cons a rest ih =>
    intro bins idx h
    rw [largePass]
    have h1 := largeStep_cursor (C := C) (s := a) h
    have h2 := @ih (largeStep C bins idx a).1 (largeStep C bins idx a).2 h1.2
    dsimp only
    exact ⟨le_trans h1.1 h2.1, h2.2⟩

theorem largePass_capOK {C : Nat} :
    ∀ {lg : List Nat} {bins : Bins} {idx : Nat}, idx ≤ bins.length →
      CapOK C bins → (∀ x ∈ lg, x ≤ C) →
      CapOK C (largePass C bins idx lg).1 := by
  intro lg
  induction lg with
  | nil => intro bins idx _ hcap _; simpa [largePass] using hcap
  | cons a rest ih =>
    intro bins idx h hcap hsz
    rw [largePass]
    have h1 := largeStep_cursor (C := C) (s := a) h
    dsimp only
    exact ih h1.2 (largeStep_capOK h hcap (hsz a (by simp)))
      (fun x hx => hsz x (by simp [hx]))

theorem largePass_flatten_perm {C : Nat} :
    ∀ {lg : List Nat} {bins : Bins} {idx : Nat}, idx ≤ bins.length →
      List.Perm (largePass C bins idx lg).1.flatten (bins.flatten ++ lg) := by
  intro lg
  induction lg with
  | nil => intro bins idx _; simp [largePass]
  | cons a rest ih =>
    intro bins idx h
    rw [largePass]
    have h1 := largeStep_cursor (C := C) (s := a) h
    have hstep := largeStep_flatten_perm (C := C) (s := a) h
    have hih := @ih (largeStep C bins idx a).1 (largeStep C bins idx a).2 h1.2
    dsimp only
    rw [← Multiset.coe_eq_coe] at hstep hih ⊢
    simp only [← Multiset.coe_add, ← Multiset.cons_coe, ← Multiset.singleton_add]
      at hstep hih ⊢
    rw [hih, hstep]
    abel

/-! ## `ModifiedFirstFitDecreasing::pack_all`: invariant and conservation -/

theorem mem_flatten_le_of_capOK {C : Nat} {bins : Bins} (hcap : CapOK C bins)
    {x : Nat} (hx : x ∈ bins.flatten) : x ≤ C := by
  rcases List.mem_flatten.mp hx with ⟨b, hb, hxb⟩
  exact le_trans (List.single_le_sum (fun y _ => Nat.zero_le y) x hxb) (hcap b hb)

theorem flatten_reverse_perm :
    ∀ (l : Bins), List.Perm l.reverse.flatten l.flatten := by
  intro l
  induction l with
  | nil => simp
  | cons b t ih =>
    rw [← Multiset.coe_eq_coe] at ih ⊢
    simp only [List.reverse_cons, List.flatten_append, List.flatten_cons,
      List.append_nil, ← Multiset.coe_add, ← Multiset.cons_coe,
      ← Multiset.singleton_add] at ih ⊢
    rw [ih]
    abel

/-- Everything `ModifiedFirstFitDecreasing::pack_all` guarantees at once:
capacity invariant, conservation of the packed multiset, and the drained
item vector. -/
theorem mffd_master {C : Nat} {bins : Bins} {items : List Nat}
    (hcap : CapOK C bins) (hsz : ∀ x ∈ items, x ≤ C) :
    CapOK C (mffdPackAll C bins items).1 ∧
      List.Perm (mffdPackAll C bins items).1.flatten (bins.flatten ++ items) ∧
      (mffdPackAll C bins items).2 = [] := by
  rcases hcl : classify C items with ⟨lg, med, sm, ti⟩
  have hclperm : List.Perm (lg ++ (med ++ (sm ++ ti))) items := by
    have := classify_perm C items
    rw [hcl] at this
    exact this
  have hmem_lg : ∀ x ∈ lg, x ≤ C := fun x hx =>
    hsz x (hclperm.mem_iff.mp (List.mem_append_left _ hx))
  have hmem_med : ∀ x ∈ med, x ≤ C := fun x hx =>
    hsz x (hclperm.mem_iff.mp (List.mem_append_right _ (List.mem_append_left _ hx)))
  have hmem_sm : ∀ x ∈ sm, x ≤ C := fun x hx =>
    hsz x (hclperm.mem_iff.mp (List.mem_append_right _ (List.mem_append_right _
      (List.mem_append_left _ hx))))
  have hmem_ti : ∀ x ∈ ti, x ≤ C := fun x hx =>
    hsz x (hclperm.mem_iff.mp (List.mem_append_right _ (List.mem_append_right _
      (List.mem_append_right _ hx))))
  rw [mffdPackAll, hcl]
  dsimp only
  rcases hlp : largePass C bins 0 (sortDesc lg) with ⟨bins1, idx1⟩
  dsimp only
  have hcap1 : CapOK C bins1 := by
    have := @largePass_capOK C (sortDesc lg) bins 0
      (Nat.zero_le _) hcap (fun x hx => hmem_lg x (mem_sortDesc.mp hx))
    rw [hlp] at this
    exact this
  have hperm1 : List.Perm bins1.flatten (bins.flatten ++ sortDesc lg) := by
    have := @largePass_flatten_perm C (sortDesc lg) bins 0 (Nat.zero_le _)
    rw [hlp] at this
    exact this
  rcases hmp : mediumPass C bins1 (sortDesc med) with ⟨bins2, med1⟩
  dsimp only
  have hcap2 : CapOK C bins2 := by
    have := @mediumPass_capOK C bins1 (sortDesc med) hcap1
    rw [hmp] at this
    exact this
  have hperm2 : List.Perm (bins2.flatten ++ med1) (bins1.flatten ++ sortDesc med) := by
    have := @mediumPass_flatten_perm C bins1 (sortDesc med)
    rw [hmp] at this
    exact this
  rcases hsp : smallPassRev C bins2.reverse (sortDesc sm) with ⟨rev3, sm1⟩
  dsimp only
  have hcaprev : CapOK C bins2.reverse := fun b hb => hcap2 b (List.mem_reverse.mp hb)
  have hcap3 : CapOK C rev3.reverse := by
    have := @smallPassRev_capOK C bins2.reverse (sortDesc sm) hcaprev
    rw [hsp] at this
    exact fun b hb => this b (List.mem_reverse.mp hb)
  have hperm3 : List.Perm (rev3.flatten ++ sm1)
      (bins2.reverse.flatten ++ sortDesc sm) := by
    have := @smallPassRev_flatten_perm C bins2.reverse (sortDesc sm)
    rw [hsp] at this
    exact this
  rcases htp : tinyPass C rev3.reverse med1 sm1 (sortDesc ti) with ⟨bins4, med2, sm2, ti1⟩
  dsimp only
  have hcap4 : CapOK C bins4 := by
    have := @tinyPass_capOK C rev3.reverse med1 sm1 (sortDesc ti) hcap3
    rw [htp] at this
    exact this
  have hperm4 : List.Perm (bins4.flatten ++ (med2 ++ (sm2 ++ ti1)))
      (rev3.reverse.flatten ++ (med1 ++ (sm1 ++ sortDesc ti))) := by
    have := @tinyPass_flatten_perm C rev3.reverse med1 sm1 (sortDesc ti)
    rw [htp] at this
    exact this
  have htotal : List.Perm (bins4.flatten ++ (med2 ++ (sm2 ++ ti1)))
      (bins.flatten ++ items) := by
    have hlg := Multiset.coe_eq_coe.mpr (sortDesc_perm lg)
    have hmed := Multiset.coe_eq_coe.mpr (sortDesc_perm med)
    have hsm := Multiset.coe_eq_coe.mpr (sortDesc_perm sm)
    have hti := Multiset.coe_eq_coe.mpr (sortDesc_perm ti)
    have hr2 := Multiset.coe_eq_coe.mpr (flatten_reverse_perm bins2)
    have hr3 := Multiset.coe_eq_coe.mpr (flatten_reverse_perm rev3)
    rw [← Multiset.coe_eq_coe] at hperm1 hperm2 hperm3 hperm4 hclperm ⊢
    simp only [← Multiset.coe_add] at hperm1 hperm2 hperm3 hperm4 hclperm ⊢
    calc (bins4.flatten : Multiset Nat) + (↑med2 + (↑sm2 + ↑ti1))
        = ↑rev3.reverse.flatten + (↑med1 + (↑sm1 + ↑(sortDesc ti))) := hperm4
      _ = (↑rev3.flatten + ↑sm1) + (↑med1 + ↑ti) := by rw [hr3, hti]; abel
      _ = (↑bins2.reverse.flatten + ↑(sortDesc sm)) + (↑med1 + ↑ti) := by rw [hperm3]
      _ = (↑bins2.flatten + ↑med1) + (↑sm + ↑ti) := by rw [hr2, hsm]; abel
      _ = (↑bins1.flatten + ↑(sortDesc med)) + (↑sm + ↑ti) := by rw [hperm2]
      _ = ↑bins1.flatten + (↑med + (↑sm + ↑ti)) := by rw [hmed]; abel
      _ = (↑bins.flatten + ↑(sortDesc lg)) + (↑med + (↑sm + ↑ti)) := by rw [hperm1]
      _ = ↑bins.flatten + (↑lg + (↑med + (↑sm + ↑ti))) := by rw [hlg]; abel
      _ = ↑bins.flatten + ↑items := by rw [hclperm]
  have hrem : ∀ x ∈ med2 ++ sm2 ++ ti1, x ≤ C := by
    intro x hx
    rw [List.append_assoc] at hx
    have hx2 : x ∈ bins.flatten ++ items :=
      htotal.mem_iff.mp (List.mem_append_right _ hx)
    rcases List.mem_append.mp hx2 with hx3 | hx3
    · exact mem_flatten_le_of_capOK hcap hx3
    · exact hsz x hx3
  rw [ffdPackAll, drainPackLoop_eq_packBins]
  dsimp only
  refine ⟨?_, ?_, rfl⟩
  · refine capOK_packBins (firstFit_valid C) hcap4 ?_
    intro x hx
    rw [List.mem_reverse, mem_sortDesc] at hx
    exact hrem x hx
  · refine (packBins_flatten_perm (firstFit_valid C)).trans ?_
    refine List.Perm.trans ?_ htotal
    refine List.Perm.append_left _ ?_
    refine List.Perm.trans (List.reverse_perm _) ?_
    refine List.Perm.trans (sortDesc_perm _) ?_
    rw [List.append_assoc]

/-! ## Worst Fit and Almost Worst Fit (bench.rs strategies)

The benchmark imports `WorstFit` and `AlmostWorstFit` from the crate's
online-strategy module, but no file in the repository defines them; both
are modelled here from the spec. -/

/-- Modelled from the spec: the loop of `WorstFit::next_idx` (the strategy
definition is missing from the repository sources; only bench.rs uses it).
"bin with largest `available` among all fitting bins; ties broken by lowest
index": walk the `(index, bin)` pairs whose index passes `ok`, keeping the
index of the *loosest* fitting bin, a new bin winning only on a strictly
larger `available()`.  The `ok` filter restricts the candidate indices (all
of them for Worst Fit itself). -/
def worstFitGo (C : Nat) (s : Nat) (all : Bins) (ok : Nat → Bool) :
    List (Nat × Bin) → Option Nat → Option Nat
  | [], best => best
  | (i, b) :: rest, best =>
    if ok i ∧ s ≤ available C b then
      match best with
      | none => worstFitGo C s all ok rest (some i)
      | some j =>
        if available C (all.getD j []) < available C b then
          worstFitGo C s all ok rest (some i)
        else
          worstFitGo C s all ok rest (some j)
    else
      worstFitGo C s all ok rest best

/-- Modelled from the spec: `WorstFit::next_idx` — the fitting bin with the
largest available capacity, lowest index winning ties. -/
def worstFit (C : Nat) (bins : Bins) (s : Nat) : Option Nat :=
  worstFitGo C s bins (fun _ => true) bins.enum none

/-- Worst Fit restricted to candidate indices other than `skip`. -/
def worstFitExcept (C : Nat) (bins : Bins) (s : Nat) (skip : Nat) : Option Nat :=
  worstFitGo C s bins (fun i => decide (i ≠ skip)) bins.enum none

/-- Modelled from the spec: `AlmostWorstFit::next_idx` — the bin with the
*second*-largest available capacity among fitting bins, falling back to
Worst Fit behaviour when fewer than two candidate bins exist. -/
def almostWorstFit (C : Nat) (bins : Bins) (s : Nat) : Option Nat :=
  match worstFit C bins s with
  | none => none
  | some j =>
    match worstFitExcept C bins s j with
    | none => some j
    | some k => some k

/-- The index Worst Fit must return among the candidates passing `ok`. -/
def IsWorstFitAmong (C : Nat) (bins : Bins) (s : Nat) (ok : Nat → Bool)
    (i : Nat) : Prop :=
  i < bins.length ∧ ok i = true ∧ fitsAt C bins s i ∧
    (∀ k, k < bins.length → ok k = true → fitsAt C bins s k →
      available C (bins.getD k []) ≤ available C (bins.getD i [])) ∧
    (∀ k, k < i → ok k = true → fitsAt C bins s k →
      available C (bins.getD k []) < available C (bins.getD i []))

/-- Loop invariant of the Worst Fit walk after the first `n` bins. -/
def WFInv (C : Nat) (all : Bins) (s : Nat) (ok : Nat → Bool) (n : Nat) :
    Option Nat → Prop
  | none => ∀ j, j < n → ok j = true → ¬ fitsAt C all s j
  | some j =>
    j < n ∧ j < all.length ∧ ok j = true ∧ fitsAt C all s j ∧
      (∀ k, k < n → ok k = true → fitsAt C all s k →
        available C (all.getD k []) ≤ available C (all.getD j [])) ∧
      (∀ k, k < j → ok k = true → fitsAt C all s k →
        available C (all.getD k []) < available C (all.getD j []))

/-- What holds of the returned value once the whole slice was walked. -/
def WFFinal (C : Nat) (all : Bins) (s : Nat) (ok : Nat → Bool) :
    Option Nat → Prop
  | none => ∀ j, j < all.length → ok j = true → ¬ fitsAt C all s j
  | some j => IsWorstFitAmong C all s ok j

theorem worstFitGo_final {C s : Nat} {all : Bins} {ok : Nat → Bool} :
    ∀ (l : List Bin) (n : Nat) (best : Option Nat),
      all.drop n = l → WFInv C all s ok n best →
      WFFinal C all s ok (worstFitGo C s all ok (List.enumFrom n l) best) := by
  intro l
  induction l with
  | nil =>
    intro n best hdrop hinv
    have hlen : all.length ≤ n := by
      have := congrArg List.length hdrop
      simp [List.length_drop] at this
      omega
    cases best with
    | none =>
      simp only [List.enumFrom, worstFitGo, WFFinal]
      intro j hj
      exact hinv j (by omega)
    | some j =>
      simp only [List.enumFrom, worstFitGo, WFFinal]
      obtain ⟨-, hjlen, hjok, hfit, hmax, hstrict⟩ := hinv
      exact ⟨hjlen, hjok, hfit, fun k hk => hmax k (by omega), hstrict⟩
  | cons b l' ih =>
    intro n best hdrop hinv
    have hn : n < all.length := by
      by_contra hge
      rw [List.drop_eq_nil_of_le (by omega)] at hdrop
      exact List.noConfusion hdrop
    have hb : all.getD n [] = b := getD_of_drop_cons hdrop
    have hdrop' : all.drop (n + 1) = l' := by
      have := congrArg List.tail hdrop
      simpa [List.tail_drop] using this
    simp only [List.enumFrom, worstFitGo]
    by_cases hcand : ok n = true ∧ s ≤ available C b
    · rw [if_pos (by exact ⟨hcand.1, hcand.2⟩)]
      have hfitn : fitsAt C all s n := by rw [fitsAt, hb]; exact hcand.2
      cases best with
      | none =>
        apply ih (n + 1) (some n) hdrop'
        refine ⟨by omega, hn, hcand.1, hfitn, ?_, ?_⟩
        · intro k hk hok hkfit
          rcases Nat.lt_succ_iff_lt_or_eq.mp hk with hk' | rfl
          · exact absurd hkfit (hinv k hk' hok)
          · exact Nat.le_refl _
        · intro k hk hok hkfit
          exact absurd hkfit (hinv k (by omega) hok)
      | some j =>
        obtain ⟨hjn, hjlen, hjok, hjfit, hjmax, hjstrict⟩ := hinv
        dsimp only
        by_cases hlt : available C (all.getD j []) < available C b
        · rw [if_pos hlt]
          apply ih (n + 1) (some n) hdrop'
          refine ⟨by omega, hn, hcand.1, hfitn, ?_, ?_⟩
          · intro k hk hok hkfit
            rcases Nat.lt_succ_iff_lt_or_eq.mp hk with hk' | rfl
            · have := hjmax k hk' hok hkfit
              rw [hb]; omega
            · exact Nat.le_refl _
          · intro k hk hok hkfit
            have := hjmax k (by omega) hok hkfit
            rw [hb]; omega
        · rw [if_neg hlt]
          apply ih (n + 1) (some j) hdrop'
          refine ⟨by omega, hjlen, hjok, hjfit, ?_, hjstrict⟩
          intro k hk hok hkfit
          rcases Nat.lt_succ_iff_lt_or_eq.mp hk with hk' | rfl
          · exact hjmax k hk' hok hkfit
          · rw [hb]
            omega
    · rw [if_neg hcand]
      have hnocand : ¬ (ok n = true ∧ fitsAt C all s n) := by
        rw [fitsAt, hb]
        exact hcand
      cases best with
      | none =>
        apply ih (n + 1) none hdrop'
        intro j hj hok
        rcases Nat.lt_succ_iff_lt_or_eq.mp hj with hj' | rfl
        · exact hinv j hj' hok
        · intro hfit; exact hnocand ⟨hok, hfit⟩
      | some j =>
        obtain ⟨hjn, hjlen, hjok, hjfit, hjmax, hjstrict⟩ := hinv
        apply ih (n + 1) (some j) hdrop'
        refine ⟨by omega, hjlen, hjok, hjfit, ?_, hjstrict⟩
        intro k hk hok hkfit
        rcases Nat.lt_succ_iff_lt_or_eq.mp hk with hk' | rfl
        · exact hjmax k hk' hok hkfit
        · exact absurd ⟨hok, hkfit⟩ hnocand

theorem worstFitGo_final_all (C : Nat) (bins : Bins) (s : Nat) (ok : Nat → Bool) :
    WFFinal C bins s ok (worstFitGo C s bins ok bins.enum none) := by
  rw [List.enum_eq_enumFrom]
  exact worstFitGo_final bins 0 none (by simp) (by intro j hj; omega)

/-- The Worst Fit choice proper: all indices are candidates. -/
def IsWorstFit (C : Nat) (bins : Bins) (s : Nat) (i : Nat) : Prop :=
  IsWorstFitAmong C bins s (fun _ => true) i

/-- A second-largest-availability choice: the worst fit among the fitting
bins other than the Worst Fit choice itself. -/
def IsSecondWorstFit (C : Nat) (bins : Bins) (s : Nat) (i : Nat) : Prop :=
  ∃ j, IsWorstFit C bins s j ∧
    IsWorstFitAmong C bins s (fun m => decide (m ≠ j)) i

/-- At least two distinct fitting bins exist. -/
def TwoCandidates (C : Nat) (bins : Bins) (s : Nat) : Prop :=
  ∃ a b, a ≠ b ∧ a < bins.length ∧ b < bins.length ∧
    fitsAt C bins s a ∧ fitsAt C bins s b

theorem isWorstFitAmong_unique {C : Nat} {bins : Bins} {s : Nat}
    {ok : Nat → Bool} {i j : Nat} (hi : IsWorstFitAmong C bins s ok i)
    (hj : IsWorstFitAmong C bins s ok j) : i = j := by
  obtain ⟨hilen, hiok, hifit, himax, histrict⟩ := hi
  obtain ⟨hjlen, hjok, hjfit, hjmax, hjstrict⟩ := hj
  by_contra hne
  rcases Nat.lt_or_ge i j with hij | hij
  · have h1 := hjstrict i hij hiok hifit
    have h2 := himax j hjlen hjok hjfit
    omega
  · have h1 := histrict j (by omega) hjok hjfit
    have h2 := hjmax i hilen hiok hifit
    omega

theorem worstFit_eq_some {C : Nat} {bins : Bins} {s i : Nat} :
    worstFit C bins s = some i ↔ IsWorstFit C bins s i := by
  have hfin := worstFitGo_final_all C bins s (fun _ => true)
  rw [show worstFitGo C s bins (fun _ => true) bins.enum none = worstFit C bins s
    from rfl] at hfin
  constructor
  · intro h
    rw [h] at hfin
    exact hfin
  · intro hi
    cases hr : worstFit C bins s with
    | none =>
      rw [hr] at hfin
      exact absurd hi.2.2.1 (hfin i hi.1 rfl)
    | some j =>
      rw [hr] at hfin
      rw [isWorstFitAmong_unique hi hfin]

theorem worstFit_eq_none {C : Nat} {bins : Bins} {s : Nat} :
    worstFit C bins s = none ↔ ∀ j, j < bins.length → ¬ fitsAt C bins s j := by
  have hfin := worstFitGo_final_all C bins s (fun _ => true)
  rw [show worstFitGo C s bins (fun _ => true) bins.enum none = worstFit C bins s
    from rfl] at hfin
  constructor
  · intro h
    rw [h] at hfin
    intro j hj
    exact hfin j hj rfl
  · intro hno
    cases hr : worstFit C bins s with
    | none => rfl
    | some j =>
      rw [hr] at hfin
      exact absurd hfin.2.2.1 (hno j hfin.1)

theorem worstFitExcept_eq_some {C : Nat} {bins : Bins} {s skip i : Nat} :
    worstFitExcept C bins s skip = some i ↔
      IsWorstFitAmong C bins s (fun m => decide (m ≠ skip)) i := by
  have hfin := worstFitGo_final_all C bins s (fun m => decide (m ≠ skip))
  rw [show worstFitGo C s bins (fun m => decide (m ≠ skip)) bins.enum none
    = worstFitExcept C bins s skip from rfl] at hfin
  constructor
  · intro h
    rw [h] at hfin
    exact hfin
  · intro hi
    cases hr : worstFitExcept C bins s skip with
    | none =>
      rw [hr] at hfin
      exact absurd hi.2.2.1 (hfin i hi.1 hi.2.1)
    | some j =>
      rw [hr] at hfin
      rw [isWorstFitAmong_unique hi hfin]

theorem worstFitExcept_eq_none {C : Nat} {bins : Bins} {s skip : Nat} :
    worstFitExcept C bins s skip = none ↔
      ∀ j, j < bins.length → j ≠ skip → ¬ fitsAt C bins s j := by
  have hfin := worstFitGo_final_all C bins s (fun m => decide (m ≠ skip))
  rw [show worstFitGo C s bins (fun m => decide (m ≠ skip)) bins.enum none
    = worstFitExcept C bins s skip from rfl] at hfin
  constructor
  · intro h
    rw [h] at hfin
    intro j hj hne
    exact hfin j hj (by simpa using hne)
  · intro hno
    cases hr : worstFitExcept C bins s skip with
    | none => rfl
    | some j =>
      rw [hr] at hfin
      exact absurd hfin.2.2.1 (hno j hfin.1 (by simpa using hfin.2.1))

theorem almostWorstFit_spec (C : Nat) (bins : Bins) (s : Nat) :
    (TwoCandidates C bins s →
      ∃ i, almostWorstFit C bins s = some i ∧ IsSecondWorstFit C bins s i)
    ∧ (¬ TwoCandidates C bins s →
      almostWorstFit C bins s = worstFit C bins s) := by
  constructor
  · rintro ⟨a, b, hab, ha, hb, hfa, hfb⟩
    cases hwf : worstFit C bins s with
    | none =>
      exact absurd hfa (worstFit_eq_none.mp hwf a ha)
    | some j =>
      have hwfj : IsWorstFit C bins s j := worstFit_eq_some.mp hwf
      cases hwe : worstFitExcept C bins s j with
      | none =>
        have hno := worstFitExcept_eq_none.mp hwe
        by_cases haj : a = j
        · subst haj
          exact absurd hfb (hno b hb (by omega))
        · exact absurd hfa (hno a ha haj)
      | some k =>
        refine ⟨k, ?_, j, hwfj, worstFitExcept_eq_some.mp hwe⟩
        simp only [almostWorstFit, hwf, hwe]
  · intro hno
    cases hwf : worstFit C bins s with
    | none => simp only [almostWorstFit, hwf]
    | some j =>
      have hwfj : IsWorstFit C bins s j := worstFit_eq_some.mp hwf
      cases hwe : worstFitExcept C bins s j with
      | none => simp only [almostWorstFit, hwf, hwe]
      | some k =>
        have hk := worstFitExcept_eq_some.mp hwe
        exact absurd ⟨k, j, by simpa using hk.2.1, hk.1, hwfj.1,
          hk.2.2.1, hwfj.2.2.1⟩ hno

/-! ## The small-item pass, characterised in terms of smallest/largest -/

theorem getLastD_cons_cons (a b : Nat) (t : List Nat) (d : Nat) :
    (a :: b :: t).getLastD d = (b :: t).getLastD d := by
  simp [List.getLastD_cons]

/-- In a descending-sorted list the popped last element is minimal. -/
theorem getLastD_min_of_sortedDesc :
    ∀ {l : List Nat}, SortedDesc l → ∀ y ∈ l, l.getLastD 0 ≤ y := by
  intro l
  induction l with
  | nil => intro _ y hy; simp at hy
  | cons a t ih =>
    intro hs y hy
    rcases hs with - | ⟨ha, ht⟩
    cases t with
    | nil =>
      simp at hy
      simp [hy]
    | cons b t' =>
      rw [getLastD_cons_cons]
      rcases List.mem_cons.mp hy with rfl | hy'
      · have h1 := ih ht b (by simp)
        have h2 := ha b (by simp)
        omega
      · exact ih ht y hy'

theorem sortedDesc_dropLast {l : List Nat} (h : SortedDesc l) :
    SortedDesc l.dropLast :=
  List.Pairwise.sublist (List.dropLast_sublist l) h

/-- The guard sum of the small pass: the last (= smallest) element plus the
one before it (= smallest of the rest), or just the single element. -/
theorem take2_reverse_sum_eq (s0 : Nat) (sl0 : List Nat) :
    (sl0 = [] → (((s0 :: sl0).reverse).take 2).sum = s0) ∧
    (sl0 ≠ [] → (((s0 :: sl0).reverse).take 2).sum
      = (s0 :: sl0).getLastD 0 + ((s0 :: sl0).dropLast.getLastD 0)) := by
  constructor
  · rintro rfl; simp
  · intro hne
    have hsplit := dropLast_append_getLastD sl0 s0 0
    have hrev : (s0 :: sl0).reverse
        = (s0 :: sl0).getLastD 0 :: (s0 :: sl0).dropLast.reverse := by
      conv_lhs => rw [← hsplit]
      simp
    rw [hrev]
    cases hdl : (s0 :: sl0).dropLast with
    | nil =>
      exfalso
      apply hne
      have hlen := congrArg List.length hdl
      simp at hlen
      exact hlen
    | cons d0 dl0 =>
      have hsplit2 := dropLast_append_getLastD dl0 d0 0
      have hrev2 : (d0 :: dl0).reverse
          = (d0 :: dl0).getLastD 0 :: (d0 :: dl0).dropLast.reverse := by
        conv_lhs => rw [← hsplit2]
        simp
      rw [hrev2]
      simp [List.take]

/-- One iteration of the small-pass loop over a nonempty descending-sorted
small vector: (i) an empty vector stops the walk with the bins untouched;
(ii) when the two smallest remaining items together exceed the bin's
availability the bin is skipped unchanged; (iii) otherwise the bin first
receives the minimum remaining item, and then the largest remaining item
that fits the updated availability if one exists (none is added if none
fits). -/
theorem smallPassRev_step_spec (C : Nat) (b : Bin) (rest : Bins) (s0 : Nat)
    (sl0 : List Nat) (hs : SortedDesc (s0 :: sl0)) :
    (∀ bs : Bins, smallPassRev C bs [] = (bs, [])) ∧
    (∀ y ∈ s0 :: sl0, (s0 :: sl0).getLastD 0 ≤ y) ∧
    (available C b < (((s0 :: sl0).reverse).take 2).sum →
      smallPassRev C (b :: rest) (s0 :: sl0)
        = (b :: (smallPassRev C rest (s0 :: sl0)).1,
           (smallPassRev C rest (s0 :: sl0)).2)) ∧
    ((((s0 :: sl0).reverse).take 2).sum ≤ available C b →
      (∃ x sl2,
        extractFirst
          (fun y => decide (y ≤ available C (pack b ((s0 :: sl0).getLastD 0))))
          (s0 :: sl0).dropLast = some (x, sl2) ∧
        x ≤ available C (pack b ((s0 :: sl0).getLastD 0)) ∧
        (∀ y ∈ (s0 :: sl0).dropLast,
          y ≤ available C (pack b ((s0 :: sl0).getLastD 0)) → y ≤ x) ∧
        smallPassRev C (b :: rest) (s0 :: sl0)
          = (pack (pack b ((s0 :: sl0).getLastD 0)) x :: (smallPassRev C rest sl2).1,
             (smallPassRev C rest sl2).2))
      ∨ ((∀ y ∈ (s0 :: sl0).dropLast,
            ¬ y ≤ available C (pack b ((s0 :: sl0).getLastD 0))) ∧
         smallPassRev C (b :: rest) (s0 :: sl0)
           = (pack b ((s0 :: sl0).getLastD 0)
                :: (smallPassRev C rest (s0 :: sl0).dropLast).1,
              (smallPassRev C rest (s0 :: sl0).dropLast).2))) := by
  refine ⟨?_, getLastD_min_of_sortedDesc hs, ?_, ?_⟩
  · intro bs
    cases bs with
    | nil => rfl
    | cons x xs => rfl
  · intro hskip
    rw [smallPassRev, if_pos hskip]
  · intro hfits
    have hng : ¬ available C b < (((s0 :: sl0).reverse).take 2).sum := by omega
    rw [smallPassRev, if_neg hng]
    dsimp only
    cases he : extractFirst
        (fun y => decide (y ≤ available C (pack b ((s0 :: sl0).getLastD 0))))
        (s0 :: sl0).dropLast with
    | some pr =>
      obtain ⟨x, sl2⟩ := pr
      left
      obtain ⟨hpx, hperm, hsub, hmemx⟩ := extractFirst_some he
      refine ⟨x, sl2, rfl, by simpa using hpx, ?_, rfl⟩
      intro y hy hfit
      rcases List.mem_cons.mp (hperm.mem_iff.mp hy) with rfl | h
      · exact Nat.le_refl _
      · exact extractFirst_max_of_sortedDesc (sortedDesc_dropLast hs)
          (fun a c hac hc => by
            simp only [decide_eq_true_eq] at hc ⊢
            omega) he y h (by simpa using hfit)
    | none =>
      right
      have hnone := extractFirst_none.mp he
      refine ⟨?_, rfl⟩
      intro y hy
      have := hnone y hy
      simpa using this

/-! ## The claims -/

/-- Claim C1: the claim states that `FirstFitDecreasing::pack_all` and
`BestFitDecreasing::pack_all` process items in *descending* size order and
coincide with `pack_bins` fed the descending-sorted items.  The code sorts
descending but then drains the vector with `Vec::pop`, which takes from the
back, so the items are processed in *ascending* order: on capacity 10 and
items `[5, 6]` the offline run packs 5 first (bins `[[5], [6]]`) while the
online driver on the descending order packs 6 first (bins `[[6], [5]]`),
and the two disagree — for `BestFitDecreasing` as well. -/
theorem claim_C1_ffd_processes_ascending :
    (ffdPackAll 10 [] [5, 6]).1 = [[5], [6]] ∧
    packBins (firstFit 10) [] (sortDesc [5, 6]) = [[6], [5]] ∧
    (ffdPackAll 10 [] [5, 6]).1 ≠ packBins (firstFit 10) [] (sortDesc [5, 6]) ∧
    (bfdPackAll 10 [] [5, 6]).1 ≠ packBins (bestFit 10) [] (sortDesc [5, 6]) := by
  have h1 := drainPackLoop_eq_packBins (firstFit 10) [] (sortDesc [5, 6])
  have h2 := drainPackLoop_eq_packBins (bestFit 10) [] (sortDesc [5, 6])
  rw [ffdPackAll, bfdPackAll, h1, h2]
  decide

/-- Claim C2: for every strategy — online `pack_bins` and
`pack_existing_bins` with FirstFit, BestFit and NextFit, and offline
`pack_all` for FFD, BFD and MFFD — packing items whose sizes are at most
the capacity into bins whose packed sums are at most the capacity leaves
every bin's packed sum at most the capacity. -/
theorem claim_C2_capacity_invariant (C : Nat) (bins : Bins) (items : List Nat)
    (hcap : CapOK C bins) (hsz : ∀ x ∈ items, x ≤ C) :
    CapOK C (packBins (firstFit C) bins items) ∧
    CapOK C (packBins (bestFit C) bins items) ∧
    CapOK C (packBins (nextFit C) bins items) ∧
    CapOK C (packExistingBins (firstFit C) bins items).1 ∧
    CapOK C (packExistingBins (bestFit C) bins items).1 ∧
    CapOK C (packExistingBins (nextFit C) bins items).1 ∧
    CapOK C (ffdPackAll C bins items).1 ∧
    CapOK C (bfdPackAll C bins items).1 ∧
    CapOK C (mffdPackAll C bins items).1 := by
  have hszr : ∀ x ∈ (sortDesc items).reverse, x ≤ C := by
    intro x hx
    rw [List.mem_reverse, mem_sortDesc] at hx
    exact hsz x hx
  refine ⟨capOK_packBins (firstFit_valid C) hcap hsz,
    capOK_packBins (bestFit_valid C) hcap hsz,
    capOK_packBins (nextFit_valid C) hcap hsz,
    capOK_packExistingBins (firstFit_valid C) hcap,
    capOK_packExistingBins (bestFit_valid C) hcap,
    capOK_packExistingBins (nextFit_valid C) hcap,
    ?_, ?_, (mffd_master hcap hsz).1⟩
  · rw [ffdPackAll, drainPackLoop_eq_packBins]
    exact capOK_packBins (firstFit_valid C) hcap hszr
  · rw [bfdPackAll, drainPackLoop_eq_packBins]
    exact capOK_packBins (bestFit_valid C) hcap hszr

/-- Claim C2 witness at capacity 10, one pre-filled bin and items
`[5, 6, 2]`. -/
theorem claim_C2_witness :
    CapOK 10 (packBins (firstFit 10) [[3]] [5, 6, 2]) ∧
    CapOK 10 (packBins (bestFit 10) [[3]] [5, 6, 2]) ∧
    CapOK 10 (packBins (nextFit 10) [[3]] [5, 6, 2]) ∧
    CapOK 10 (packExistingBins (firstFit 10) [[3]] [5, 6, 2]).1 ∧
    CapOK 10 (packExistingBins (bestFit 10) [[3]] [5, 6, 2]).1 ∧
    CapOK 10 (packExistingBins (nextFit 10) [[3]] [5, 6, 2]).1 ∧
    CapOK 10 (ffdPackAll 10 [[3]] [5, 6, 2]).1 ∧
    CapOK 10 (bfdPackAll 10 [[3]] [5, 6, 2]).1 ∧
    CapOK 10 (mffdPackAll 10 [[3]] [5, 6, 2]).1 :=
  claim_C2_capacity_invariant 10 [[3]] [5, 6, 2]
    (by intro b hb; simp at hb; simp [hb])
    (by intro x hx; simp at hx; rcases hx with rfl | rfl | rfl <;> decide)

/-- Claim C3: growth-mode packing drops no item and creates none: the
flattened multiset of packed sizes after the call is exactly the initial
bins' contents plus the item list, for online `pack_bins` under each
strategy and for the offline `pack_all`s, whose item vector is moreover
drained to empty; in particular the total packed size is the initial total
plus the item total. -/
theorem claim_C3_completeness (C : Nat) (bins : Bins) (items : List Nat)
    (hcap : CapOK C bins) (hsz : ∀ x ∈ items, x ≤ C) :
    List.Perm (packBins (firstFit C) bins items).flatten (bins.flatten ++ items) ∧
    List.Perm (packBins (bestFit C) bins items).flatten (bins.flatten ++ items) ∧
    List.Perm (packBins (nextFit C) bins items).flatten (bins.flatten ++ items) ∧
    List.Perm (ffdPackAll C bins items).1.flatten (bins.flatten ++ items) ∧
    (ffdPackAll C bins items).2 = [] ∧
    List.Perm (bfdPackAll C bins items).1.flatten (bins.flatten ++ items) ∧
    (bfdPackAll C bins items).2 = [] ∧
    List.Perm (mffdPackAll C bins items).1.flatten (bins.flatten ++ items) ∧
    (mffdPackAll C bins items).2 = [] ∧
    (mffdPackAll C bins items).1.flatten.sum = bins.flatten.sum + items.sum := by
  have hsort : List.Perm ((sortDesc items).reverse) items :=
    (List.reverse_perm _).trans (sortDesc_perm _)
  refine ⟨packBins_flatten_perm (firstFit_valid C),
    packBins_flatten_perm (bestFit_valid C),
    packBins_flatten_perm (nextFit_valid C), ?_, ?_, ?_, ?_,
    (mffd_master hcap hsz).2.1, (mffd_master hcap hsz).2.2, ?_⟩
  · rw [ffdPackAll, drainPackLoop_eq_packBins]
    exact (packBins_flatten_perm (firstFit_valid C)).trans
      (hsort.append_left bins.flatten)
  · rw [ffdPackAll, drainPackLoop_eq_packBins]
  · rw [bfdPackAll, drainPackLoop_eq_packBins]
    exact (packBins_flatten_perm (bestFit_valid C)).trans
      (hsort.append_left bins.flatten)
  · rw [bfdPackAll, drainPackLoop_eq_packBins]
  · have := ((mffd_master hcap hsz).2.1).sum_eq
    rw [this, List.sum_append]

/-- Claim C3 witness at capacity 10, one pre-filled bin and items
`[5, 6, 2]`. -/
theorem claim_C3_witness :
    List.Perm (packBins (firstFit 10) [[3]] [5, 6, 2]).flatten ([[3]].flatten ++ [5, 6, 2]) ∧
    List.Perm (packBins (bestFit 10) [[3]] [5, 6, 2]).flatten ([[3]].flatten ++ [5, 6, 2]) ∧
    List.Perm (packBins (nextFit 10) [[3]] [5, 6, 2]).flatten ([[3]].flatten ++ [5, 6, 2]) ∧
    List.Perm (ffdPackAll 10 [[3]] [5, 6, 2]).1.flatten ([[3]].flatten ++ [5, 6, 2]) ∧
    (ffdPackAll 10 [[3]] [5, 6, 2]).2 = [] ∧
    List.Perm (bfdPackAll 10 [[3]] [5, 6, 2]).1.flatten ([[3]].flatten ++ [5, 6, 2]) ∧
    (bfdPackAll 10 [[3]] [5, 6, 2]).2 = [] ∧
    List.Perm (mffdPackAll 10 [[3]] [5, 6, 2]).1.flatten ([[3]].flatten ++ [5, 6, 2]) ∧
    (mffdPackAll 10 [[3]] [5, 6, 2]).2 = [] ∧
    (mffdPackAll 10 [[3]] [5, 6, 2]).1.flatten.sum = [[3]].flatten.sum + [5, 6, 2].sum :=
  claim_C3_completeness 10 [[3]] [5, 6, 2]
    (by intro b hb; simp at hb; simp [hb])
    (by intro x hx; simp at hx; rcases hx with rfl | rfl | rfl <;> decide)

/-- Claim C4: the large-item placement walks the bins with a single forward
cursor.  One placement starting at any in-bounds cursor packs the item into
the first bin at or after the cursor whose availability strictly exceeds
the item's size, leaving the cursor there; when no such bin exists a new
bin is appended, receives the item, and the cursor is left at its index
(`bins.length`).  Over the whole pass the cursor never moves backward and
stays in bounds. -/
theorem claim_C4_large_pass (C : Nat) (bins : Bins) (idx s : Nat)
    (lg : List Nat) (h : idx ≤ bins.length) :
    ((∃ j, idx ≤ j ∧ j < bins.length ∧ s < available C (bins.getD j []) ∧
      (∀ m, idx ≤ m → m < j → ¬ s < available C (bins.getD m [])) ∧
      largeStep C bins idx s = (packAt bins j s, j))
    ∨ ((∀ m, idx ≤ m → m < bins.length → ¬ s < available C (bins.getD m [])) ∧
      largeStep C bins idx s = (bins ++ [pack [] s], bins.length))) ∧
    (idx ≤ (largePass C bins idx lg).2 ∧
      (largePass C bins idx lg).2 ≤ (largePass C bins idx lg).1.length) :=
  ⟨largeStep_spec h, largePass_cursor h⟩

/-- Claim C4 witness: capacity 10, bins `[[2]]`, cursor 0, item 6,
remaining large items `[7, 6]`. -/
theorem claim_C4_witness :
    ((∃ j, 0 ≤ j ∧ j < ([[2]] : Bins).length ∧ 6 < available 10 (([[2]] : Bins).getD j []) ∧
      (∀ m, 0 ≤ m → m < j → ¬ 6 < available 10 (([[2]] : Bins).getD m [])) ∧
      largeStep 10 [[2]] 0 6 = (packAt [[2]] j 6, j))
    ∨ ((∀ m, 0 ≤ m → m < ([[2]] : Bins).length → ¬ 6 < available 10 (([[2]] : Bins).getD m [])) ∧
      largeStep 10 [[2]] 0 6 = ([[2]] ++ [pack [] 6], ([[2]] : Bins).length))) ∧
    (0 ≤ (largePass 10 [[2]] 0 [7, 6]).2 ∧
      (largePass 10 [[2]] 0 [7, 6]).2 ≤ (largePass 10 [[2]] 0 [7, 6]).1.length) :=
  claim_C4_large_pass 10 [[2]] 0 6 [7, 6] (by decide)

/-- Claim C5: one iteration of the small-item pass on a nonempty
descending-sorted small vector: an empty vector stops the reverse walk with
the bins untouched; the bin is skipped when the sum of the two
currently-smallest remaining items (the single one when only one is left)
exceeds its availability; otherwise the bin receives the smallest remaining
item (the popped last element, minimal in the sorted vector) and then the
largest remaining item fitting the updated availability, if any exists. -/
theorem claim_C5_small_pass (C : Nat) (b : Bin) (rest : Bins) (s0 : Nat)
    (sl0 : List Nat) (hs : SortedDesc (s0 :: sl0)) :
    (∀ bs : Bins, smallPassRev C bs [] = (bs, [])) ∧
    (∀ y ∈ s0 :: sl0, (s0 :: sl0).getLastD 0 ≤ y) ∧
    (available C b < (((s0 :: sl0).reverse).take 2).sum →
      smallPassRev C (b :: rest) (s0 :: sl0)
        = (b :: (smallPassRev C rest (s0 :: sl0)).1,
           (smallPassRev C rest (s0 :: sl0)).2)) ∧
    ((((s0 :: sl0).reverse).take 2).sum ≤ available C b →
      (∃ x sl2,
        extractFirst
          (fun y => decide (y ≤ available C (pack b ((s0 :: sl0).getLastD 0))))
          (s0 :: sl0).dropLast = some (x, sl2) ∧
        x ≤ available C (pack b ((s0 :: sl0).getLastD 0)) ∧
        (∀ y ∈ (s0 :: sl0).dropLast,
          y ≤ available C (pack b ((s0 :: sl0).getLastD 0)) → y ≤ x) ∧
        smallPassRev C (b :: rest) (s0 :: sl0)
          = (pack (pack b ((s0 :: sl0).getLastD 0)) x :: (smallPassRev C rest sl2).1,
             (smallPassRev C rest sl2).2))
      ∨ ((∀ y ∈ (s0 :: sl0).dropLast,
            ¬ y ≤ available C (pack b ((s0 :: sl0).getLastD 0))) ∧
         smallPassRev C (b :: rest) (s0 :: sl0)
           = (pack b ((s0 :: sl0).getLastD 0)
                :: (smallPassRev C rest (s0 :: sl0).dropLast).1,
              (smallPassRev C rest (s0 :: sl0).dropLast).2))) :=
  smallPassRev_step_spec C b rest s0 sl0 hs

/-- Claim C5 witness: capacity 10, bin `[4]`, small vector `[3, 2, 2]`. -/
theorem claim_C5_witness :
    (∀ bs : Bins, smallPassRev 10 bs [] = (bs, [])) ∧
    (∀ y ∈ [3, 2, 2], ([3, 2, 2] : List Nat).getLastD 0 ≤ y) ∧
    (available 10 [4] < ((([3, 2, 2] : List Nat).reverse).take 2).sum →
      smallPassRev 10 ([4] :: [[2]]) [3, 2, 2]
        = ([4] :: (smallPassRev 10 [[2]] [3, 2, 2]).1,
           (smallPassRev 10 [[2]] [3, 2, 2]).2)) ∧
    (((([3, 2, 2] : List Nat).reverse).take 2).sum ≤ available 10 [4] →
      (∃ x sl2,
        extractFirst
          (fun y => decide (y ≤ available 10 (pack [4] (([3, 2, 2] : List Nat).getLastD 0))))
          ([3, 2, 2] : List Nat).dropLast = some (x, sl2) ∧
        x ≤ available 10 (pack [4] (([3, 2, 2] : List Nat).getLastD 0)) ∧
        (∀ y ∈ ([3, 2, 2] : List Nat).dropLast,
          y ≤ available 10 (pack [4] (([3, 2, 2] : List Nat).getLastD 0)) → y ≤ x) ∧
        smallPassRev 10 ([4] :: [[2]]) [3, 2, 2]
          = (pack (pack [4] (([3, 2, 2] : List Nat).getLastD 0)) x
               :: (smallPassRev 10 [[2]] sl2).1,
             (smallPassRev 10 [[2]] sl2).2))
      ∨ ((∀ y ∈ ([3, 2, 2] : List Nat).dropLast,
            ¬ y ≤ available 10 (pack [4] (([3, 2, 2] : List Nat).getLastD 0))) ∧
         smallPassRev 10 ([4] :: [[2]]) [3, 2, 2]
           = (pack [4] (([3, 2, 2] : List Nat).getLastD 0)
                :: (smallPassRev 10 [[2]] ([3, 2, 2] : List Nat).dropLast).1,
              (smallPassRev 10 [[2]] ([3, 2, 2] : List Nat).dropLast).2))) :=
  claim_C5_small_pass 10 [4] [[2]] 3 [2, 2] (by decide)

/-- Claim C6 counterexample: on capacity 10 the multiset `{9, 5, 5, 1}` in
the order `[9, 5, 5, 1]` (all sizes at most the capacity) makes online
First Fit use 2 bins while `FirstFitDecreasing::pack_all` from no bins uses
3 — the claimed bound fails. -/
theorem claim_C6_counterexample :
    ¬ ((ffdPackAll 10 [] [9, 5, 5, 1]).1.length
        ≤ (packBins (firstFit 10) [] [9, 5, 5, 1]).length) := by
  rw [ffdPackAll, drainPackLoop_eq_packBins]
  decide

/-- Claim C6 (amended): `FirstFitDecreasing::pack_all` coincides with
`pack_bins` + FirstFit fed the items sorted *ascending* by size, so its bin
count is at most (indeed equal to) the online First Fit bin count for that
ascending permutation — the universal bound over every permutation is
refuted by the counterexample. -/
theorem claim_C6_ffd_ascending_bound (C : Nat) (bins : Bins) (items : List Nat) :
    (ffdPackAll C bins items).1
      = packBins (firstFit C) bins ((sortDesc items).reverse) ∧
    List.Perm ((sortDesc items).reverse) items ∧
    List.Pairwise (fun a b => a ≤ b) ((sortDesc items).reverse) ∧
    (ffdPackAll C bins items).1.length
      ≤ (packBins (firstFit C) bins ((sortDesc items).reverse)).length := by
  have h := drainPackLoop_eq_packBins (firstFit C) bins (sortDesc items)
  refine ⟨by rw [ffdPackAll, h], (List.reverse_perm _).trans (sortDesc_perm _),
    sortDesc_reverse_sorted items, ?_⟩
  rw [ffdPackAll, h]

/-- Claim C7: `BestFit::next_idx` returns exactly the index of a fitting
bin of minimal availability, the lowest index winning ties (strict `<`
comparison), `none` exactly when no bin fits; on availabilities `[4, 4]`
and item size 3 it picks index 0. -/
theorem claim_C7_best_fit (C : Nat) (bins : Bins) (s : Nat) :
    (∀ i, bestFit C bins s = some i ↔ IsBestFit C bins s i) ∧
    (bestFit C bins s = none ↔ ∀ j, j < bins.length → ¬ fitsAt C bins s j) ∧
    bestFit 10 [[6], [6]] 3 = some 0 :=
  ⟨fun i => bestFit_eq_some, bestFit_eq_none, by decide⟩

/-- Claim C8: `pack_existing_bins` never grows the bin slice, consumes a
maximal all-hits prefix of the item iterator, leaves the suffix from the
first miss unconsumed, and — when something is left — its first item is one
the strategy cannot place in the resulting bins. -/
theorem claim_C8_pack_existing (strat : StrategyFn) (bins : Bins)
    (items : List Nat) :
    (packExistingBins strat bins items).1.length = bins.length ∧
    ∃ k, k ≤ items.length ∧
      (packExistingBins strat bins items).2 = items.drop k ∧
      packAllHits strat bins (items.take k)
        = some (packExistingBins strat bins items).1 ∧
      (k < items.length →
        strat (packExistingBins strat bins items).1 (items.getD k 0) = none) :=
  ⟨packExistingBins_length strat items bins, packExistingBins_spec strat items bins⟩

/-- Claim C9: (spec-modelled — `WorstFit` and `AlmostWorstFit` exist only
as bench.rs imports) Worst Fit returns exactly the fitting bin of maximal
availability, lowest index on ties, and `none` exactly when no bin fits;
Almost Worst Fit returns a second-largest-availability fitting bin whenever
two distinct candidates exist and otherwise coincides with Worst Fit. -/
theorem claim_C9_almost_worst_fit (C : Nat) (bins : Bins) (s : Nat) :
    (∀ i, worstFit C bins s = some i ↔ IsWorstFit C bins s i) ∧
    (worstFit C bins s = none ↔ ∀ j, j < bins.length → ¬ fitsAt C bins s j) ∧
    (TwoCandidates C bins s →
      ∃ i, almostWorstFit C bins s = some i ∧ IsSecondWorstFit C bins s i) ∧
    (¬ TwoCandidates C bins s →
      almostWorstFit C bins s = worstFit C bins s) :=
  ⟨fun i => worstFit_eq_some, worstFit_eq_none,
    (almostWorstFit_spec C bins s).1, (almostWorstFit_spec C bins s).2⟩

/-- Claim C10: the src/lib.rs copy of the MFFD large-item loop reads
`bins[idx]` before comparing the cursor with `bins.len()`: on an empty bin
vector and the single item 6 (larger than capacity/2 = 5) it indexes
position 0 of an empty vector — a panic, modelled as `none` — while the
src/offline.rs version, which checks the bound first, packs the item into a
fresh bin. -/
theorem claim_C10_lib_out_of_bounds :
    largePassLib 10 [] 0 [6] = none ∧
    largePass 10 [] 0 [6] = ([[6]], 0) ∧
    10 / 2 < 6 := by
  refine ⟨?_, ?_, by decide⟩
  · simp [largePassLib, largeStepLib]
  · simp [largePass, largeStep, pack]

end BinPacking
